import Mathlib

/-!
Verification of the container-stream rewriter of `rust-web-image-meta`
(`src/jpeg.rs`, `src/png.rs`, `src/lib.rs`).

Modelling conventions, shared by every definition below:

* A byte buffer (`&[u8]` / `Vec<u8>`) is a `List Nat`; each element stands
  for one byte.  Reading `data[i]` is `byteAt data i` (out-of-range reads
  yield 0; every walk bound-checks before reading, exactly as the source
  does, so the default is never observable on the paths the theorems use).
  The slice `&data[a..b]` is `slice data a b` and `&data[a..]` is
  `List.drop a data`.
* Rust `String` / `&str` values are represented by their UTF-8 byte
  sequences (`List Nat`).  `String::from_utf8_lossy` applied to bytes that
  are the UTF-8 encoding of a string is the identity on that encoding, and
  `str::as_bytes` is injective, so equalities between strings in the claims
  correspond exactly to equalities between the byte lists used here.
  `str.len()` is the byte length, matching `List.length`.
* The external decoders (`jpeg_decoder`, crate `png`) are collaborators
  outside this repository.  They are modelled by a validator parameter
  `v : List Nat → Bool`; `validate_jpeg_decode` / `validate_png_decode`
  wrap it and map failure to `Error.InvalidFormat`, exactly as the source
  functions map any decode failure or zero-dimension result.
* Loops that advance a cursor through the buffer are translated to
  structurally recursive functions on an explicit fuel argument; the
  top-level wrappers pass ample fuel (the buffer length, plus one where an
  iteration may not consume input).  Each recursive call returns the bytes
  the loop body appends from the current position on; the Rust code pushes
  the same bytes onto an accumulator, and the two forms agree by
  associativity of `++`.
* Machine integers are `Nat` with explicit `% 256` / `% 2 ^ 32` where the
  source casts (`as u8`, `as u32`) can truncate.
-/

namespace WebImageMeta

/-- The error enum of `src/lib.rs` (the `Io` variant carries an opaque
`std::io::Error`; none of the functions modelled here constructs it, so it
needs no payload). -/
inductive Error where
  | InvalidFormat (msg : String)
  | Io
  | ParseError (msg : String)
deriving DecidableEq, Repr

/-- `data[i]`, with default 0 out of range (never observed: all walks
bound-check first, as the Rust code does). -/
def byteAt (data : List Nat) (i : Nat) : Nat := data.getD i 0

/-- `&data[a..b]`. -/
def slice (data : List Nat) (a b : Nat) : List Nat := (data.drop a).take (b - a)

/-- Big-endian `u16` read, `((data[i] as u16) << 8) | (data[i+1] as u16)`. -/
def be16at (data : List Nat) (i : Nat) : Nat := 256 * byteAt data i + byteAt data (i + 1)

/-- Big-endian `u32` read, `u32::from_be_bytes` of four consecutive bytes. -/
def be32at (data : List Nat) (i : Nat) : Nat :=
  2 ^ 24 * byteAt data i + 2 ^ 16 * byteAt data (i + 1) +
    2 ^ 8 * byteAt data (i + 2) + byteAt data (i + 3)

/-- `u32::to_be_bytes` (the argument is reduced mod `2^32` first, as the
`as u32` casts in the source do). -/
def be32enc (n : Nat) : List Nat :=
  [n % 2 ^ 32 / 2 ^ 24, n % 2 ^ 24 / 2 ^ 16, n % 2 ^ 16 / 2 ^ 8, n % 2 ^ 8]

/-- The validator that accepts every buffer (used to instantiate the
abstract external decoder in concrete counterexamples and witnesses). -/
def vTrue : List Nat → Bool := fun _ => true

/-! ## JPEG (`src/jpeg.rs`) -/

/-- `JPEG_SOI`. -/
def JPEG_SOI : List Nat := [0xFF, 0xD8]

/-- `validate_jpeg_decode`: the external `jpeg_decoder` is abstracted by
the parameter `v`; every failure path of the source function produces
`Error::InvalidFormat` (with varying messages, abstracted to one). -/
def validate_jpeg_decode (v : List Nat → Bool) (data : List Nat) : Except Error Unit :=
  if v data then .ok () else .error (.InvalidFormat "Invalid JPEG")

/-- The inner entry loop of `extract_orientation_from_exif`
(`for i in 0..entry_count`, jpeg.rs:303-327): `idx` is the loop variable
`i`, `remaining` the number of iterations left. -/
def scanEntries (ex : List Nat) (little : Bool) (ifd0 : Nat) :
    Nat → Nat → Option Nat
  | _, 0 => none
  | idx, remaining + 1 =>
    let entryOffset := ifd0 + 2 + idx * 12
    if entryOffset + 12 > ex.length then none
    else
      let tag := if little then byteAt ex entryOffset + 256 * byteAt ex (entryOffset + 1)
                 else 256 * byteAt ex entryOffset + byteAt ex (entryOffset + 1)
      if tag = 0x0112 then
        let valueOffset := entryOffset + 8
        some (if little then byteAt ex valueOffset + 256 * byteAt ex (valueOffset + 1)
              else 256 * byteAt ex valueOffset + byteAt ex (valueOffset + 1))
      else scanEntries ex little ifd0 (idx + 1) remaining

/-- `extract_orientation_from_exif` (jpeg.rs:256-330).  The IFD0 offset is
read as `u32`; only the low 16 bits of the orientation value are returned,
exactly as in the source (`u16::from_le_bytes` of two bytes). -/
def extract_orientation_from_exif (ex : List Nat) : Option Nat :=
  if ex.length < 8 then none
  else if slice ex 0 2 = [0x49, 0x49] ∨ slice ex 0 2 = [0x4D, 0x4D] then
    let little := slice ex 0 2 = [0x49, 0x49]
    let magic := if little then byteAt ex 2 + 256 * byteAt ex 3
                 else 256 * byteAt ex 2 + byteAt ex 3
    if magic ≠ 42 then none
    else
      let ifd0 := if little then
          byteAt ex 4 + 2 ^ 8 * byteAt ex 5 + 2 ^ 16 * byteAt ex 6 + 2 ^ 24 * byteAt ex 7
        else
          2 ^ 24 * byteAt ex 4 + 2 ^ 16 * byteAt ex 5 + 2 ^ 8 * byteAt ex 6 + byteAt ex 7
      if ifd0 + 2 > ex.length then none
      else
        let entryCount := if little then byteAt ex ifd0 + 256 * byteAt ex (ifd0 + 1)
                          else 256 * byteAt ex ifd0 + byteAt ex (ifd0 + 1)
        scanEntries ex little ifd0 0 entryCount
  else none

/-- `create_minimal_exif` (jpeg.rs:156-191).  The Rust function returns
`Result` but never errors, so it is modelled as a total function.  The
length field is written as two zero bytes and back-patched afterwards
(`exif[2] = (size >> 8) as u8; exif[3] = size as u8`), exactly as in the
source. -/
def create_minimal_exif (orientation : Nat) : List Nat :=
  let exif : List Nat :=
    [0xFF, 0xE1] ++ [0x00, 0x00] ++
    [0x45, 0x78, 0x69, 0x66, 0x00, 0x00] ++      -- "Exif\0\0"
    [0x49, 0x49] ++ [0x2A, 0x00] ++              -- "II", 42
    [0x08, 0x00, 0x00, 0x00] ++                  -- IFD0 offset
    [0x01, 0x00] ++                              -- 1 entry
    [0x12, 0x01] ++ [0x03, 0x00] ++              -- tag 0x0112, type SHORT
    [0x01, 0x00, 0x00, 0x00] ++                  -- count 1
    [orientation % 256, orientation / 256 % 256, 0x00, 0x00] ++  -- value (LE)
    [0x00, 0x00, 0x00, 0x00]                     -- next IFD offset
  let size := exif.length - 2
  (exif.set 2 (size / 256 % 256)).set 3 (size % 256)

/-- `b"ICC_PROFILE\0"`. -/
def ICCsig : List Nat := [0x49, 0x43, 0x43, 0x5F, 0x50, 0x52, 0x4F, 0x46, 0x49, 0x4C, 0x45, 0x00]

/-- The `keep_segment` decision of jpeg.rs:75-100 for a sized segment,
as a function of the marker and the segment body (the two size bytes
followed by the payload are `payload` here WITHOUT the size bytes; the
walk passes `slice data pos segment_end` minus its first two bytes).
The APP2 test `segment_size > 14 && data[pos+2..pos+14] == b"ICC_PROFILE\0"`
is expressed on the payload: in the walk `payload.length + 2` equals the
segment size (the segment is in bounds) and `payload.take 12` equals
`data[pos+2..pos+14]` whenever the size exceeds 14, so the two forms
decide identically. -/
def keepB (m : Nat) (payload : List Nat) : Bool :=
  if (0xC0 ≤ m ∧ m ≤ 0xC3) ∨ (0xC5 ≤ m ∧ m ≤ 0xCF) then true  -- SOF markers
  else if m = 0xC4 then true                                   -- DHT
  else if m = 0xDB then true                                   -- DQT
  else if m = 0xDD then true                                   -- DRI
  else if m = 0xE0 then true                                   -- APP0 (JFIF)
  else if m = 0xE1 then false                                  -- APP1 (handled separately)
  else if m = 0xE2 then
    decide (payload.length + 2 > 14) && decide (payload.take 12 = ICCsig)
  else false

/-- The marker walk of `clean_metadata` (jpeg.rs:38-108).  Returns the
bytes the loop appends to `output` from position `pos` on, paired with the
final `orientation` state. -/
def cleanWalk (data : List Nat) : Nat → Nat → Bool → Option Nat →
    Except Error (List Nat × Option Nat)
  | 0, _, _, _ => .error (.ParseError "fuel")
  | fuel + 1, pos, hasExif, orient =>
    if pos < data.length - 1 then
      if byteAt data pos ≠ 0xFF then .error (.ParseError "Invalid JPEG marker")
      else
        let marker := byteAt data (pos + 1)
        let pos := pos + 2
        if marker = 0xDA then
          .ok (0xFF :: marker :: data.drop pos, orient)
        else if 0xD0 ≤ marker ∧ marker ≤ 0xD9 then
          (cleanWalk data fuel pos hasExif orient).map
            (fun r => (0xFF :: marker :: r.1, r.2))
        else if pos + 2 > data.length then .error (.ParseError "Unexpected end of JPEG data")
        else
          let segmentSize := be16at data pos
          if segmentSize < 2 then .error (.ParseError "Invalid segment size")
          else
            let segmentEnd := pos + segmentSize
            if segmentEnd > data.length then .error (.ParseError "Segment extends beyond file")
            else
              -- APP1 (0xE1): orientation capture, segment dropped
              let st : Bool × Option Nat :=
                if marker = 0xE1 ∧ ¬hasExif ∧ segmentSize > 8 ∧
                    slice data (pos + 2) (pos + 6) = [0x45, 0x78, 0x69, 0x66] then
                  (true, extract_orientation_from_exif (slice data (pos + 8) segmentEnd))
                else (hasExif, orient)
              let keepSegment : Bool := keepB marker (slice data (pos + 2) segmentEnd)
              (cleanWalk data fuel segmentEnd st.1 st.2).map
                (fun r =>
                  ((if keepSegment then 0xFF :: marker :: slice data pos segmentEnd else []) ++ r.1,
                   r.2))
    else .ok ([], orient)

/-- The walk of jpeg.rs:38-108 started as `clean_metadata` starts it,
returning the full rebuilt buffer `output` (with its leading SOI) and the
captured orientation. -/
def cleanOutput (data : List Nat) : Except Error (List Nat × Option Nat) :=
  (cleanWalk data data.length 2 false none).map (fun r => (0xFF :: 0xD8 :: r.1, r.2))

/-- The insertion loop of `clean_metadata` (jpeg.rs:119-135): a raw byte
scan over `output` for the pair `FF E0`.  Returns the bytes of
`final_output` contributed from index `i` on, paired with the final
`inserted` flag.  When the scan fires at an index `i`, the Rust code
panics if the size-byte reads `output[i+2]`, `output[i+3]` (jpeg.rs:122)
are out of range (`i + 4 > output.len()`) or if the slice
`&output[i..marker_end]` (jpeg.rs:127) runs past the end
(`marker_end > output.len()`); this model clamps in both places (`byteAt`
reads 0, `slice` truncates), and every theorem about the splice path
carries a hypothesis confining it to the region where no read is
clamped. -/
def spliceLoop (output exif : List Nat) : Nat → Nat → Bool → List Nat × Bool
  | 0, _, inserted => ([], inserted)
  | fuel + 1, i, inserted =>
    if i < output.length - 1 then
      if byteAt output i = 0xFF ∧ byteAt output (i + 1) = 0xE0 ∧ ¬inserted then
        let markerSize := be16at output (i + 2)
        let markerEnd := i + 2 + markerSize
        let r := spliceLoop output exif fuel markerEnd true
        (slice output i markerEnd ++ exif ++ r.1, r.2)
      else
        let r := spliceLoop output exif fuel (i + 1) inserted
        (byteAt output i :: r.1, r.2)
    else if i < output.length then ([byteAt output i], inserted) else ([], inserted)

/-- `clean_metadata` (jpeg.rs:22-153), over the abstract validator `v`. -/
def clean_metadata (v : List Nat → Bool) (data : List Nat) : Except Error (List Nat) :=
  if data.length < 4 ∨ data.take 2 ≠ JPEG_SOI then
    .error (.InvalidFormat "Not a valid JPEG file")
  else
    match validate_jpeg_decode v data with
    | .error e => .error e
    | .ok _ =>
      match cleanOutput data with
      | .error e => .error e
      | .ok (output, orient) =>
        -- jpeg.rs:111-147: splice a minimal EXIF segment and return early
        -- (without re-validation) when an in-range orientation was captured;
        -- jpeg.rs:149-152: otherwise fall through to re-validation.
        match orient with
        | some o =>
          if 1 ≤ o ∧ o ≤ 8 then
            let exifData := create_minimal_exif o
            let r := spliceLoop output exifData (output.length + 1) 0 false
            if r.2 then .ok r.1
            else .ok ([0xFF, 0xD8] ++ exifData ++ output.drop 2)
          else
            match validate_jpeg_decode v output with
            | .error e => .error e
            | .ok _ => .ok output
        | none =>
          match validate_jpeg_decode v output with
          | .error e => .error e
          | .ok _ => .ok output

/-- The marker walk of `read_comment` (jpeg.rs:202-250).  Returns
`some payload` for the first COM segment (the payload bytes the source
passes to `String::from_utf8_lossy`; an empty payload models the
`Some(String::new())` branch for `segment_size == 2`), `none` when the
walk reaches SOS or the end of the buffer. -/
def readCommentWalk (data : List Nat) : Nat → Nat → Except Error (Option (List Nat))
  | 0, _ => .error (.ParseError "fuel")
  | fuel + 1, pos =>
    if pos < data.length - 1 then
      if byteAt data pos ≠ 0xFF then .error (.ParseError "Invalid JPEG marker")
      else
        let marker := byteAt data (pos + 1)
        let pos := pos + 2
        if marker = 0xDA then .ok none
        else if 0xD0 ≤ marker ∧ marker ≤ 0xD9 then readCommentWalk data fuel pos
        else if pos + 2 > data.length then .error (.ParseError "Unexpected end of JPEG data")
        else
          let segmentSize := be16at data pos
          if segmentSize < 2 then .error (.ParseError "Invalid segment size")
          else
            let segmentEnd := pos + segmentSize
            if segmentEnd > data.length then .error (.ParseError "Segment extends beyond file")
            else if marker = 0xFE then
              if segmentSize > 2 then .ok (some (slice data (pos + 2) segmentEnd))
              else .ok (some [])
            else readCommentWalk data fuel segmentEnd
    else .ok none

/-- `read_comment` (jpeg.rs:194-253). -/
def read_comment (v : List Nat → Bool) (data : List Nat) :
    Except Error (Option (List Nat)) :=
  if data.length < 4 ∨ data.take 2 ≠ JPEG_SOI then
    .error (.InvalidFormat "Not a valid JPEG file")
  else
    match validate_jpeg_decode v data with
    | .error e => .error e
    | .ok _ => readCommentWalk data data.length 2

/-- The marker walk of `write_comment` (jpeg.rs:382-440), including the
trailing `if !comment_inserted` append.  Returns the bytes the loop
appends to `output` from position `pos` on. -/
def writeWalk (data comseg : List Nat) : Nat → Nat → Bool → Except Error (List Nat)
  | 0, _, _ => .error (.ParseError "fuel")
  | fuel + 1, pos, inserted =>
    if pos < data.length - 1 then
      if byteAt data pos ≠ 0xFF then .error (.ParseError "Invalid JPEG marker")
      else
        let marker := byteAt data (pos + 1)
        let pos := pos + 2
        -- jpeg.rs:395-398 inserts the comment (when not yet inserted) on
        -- seeing DQT or SOS, before dispatching on the marker; since the
        -- insertion condition is the same dispatch, it is folded into the
        -- DQT and SOS branches here.  A standalone marker is never DQT or
        -- SOS, so the other branches leave the flag untouched.
        if marker = 0xDA then
          .ok ((if inserted then [] else comseg) ++ 0xFF :: marker :: data.drop pos)
        else if 0xD0 ≤ marker ∧ marker ≤ 0xD9 then
          (writeWalk data comseg fuel pos inserted).map (fun r => 0xFF :: marker :: r)
        else if pos + 2 > data.length then .error (.ParseError "Unexpected end of JPEG data")
        else
          let segmentSize := be16at data pos
          if segmentSize < 2 then .error (.ParseError "Invalid segment size")
          else
            let segmentEnd := pos + segmentSize
            if segmentEnd > data.length then .error (.ParseError "Segment extends beyond file")
            else
              (writeWalk data comseg fuel segmentEnd (inserted || decide (marker = 0xDB))).map
                (fun r =>
                  (if inserted = false ∧ marker = 0xDB then comseg else []) ++
                    (if marker ≠ 0xFE then 0xFF :: marker :: slice data pos segmentEnd
                     else []) ++ r)
    else if inserted then .ok [] else .ok comseg

/-- `write_comment` (jpeg.rs:358-446); `comment` is the UTF-8 byte
sequence of the Rust `&str` argument. -/
def write_comment (v : List Nat → Bool) (data comment : List Nat) :
    Except Error (List Nat) :=
  if data.length < 4 ∨ data.take 2 ≠ JPEG_SOI then
    .error (.InvalidFormat "Not a valid JPEG file")
  else
    match validate_jpeg_decode v data with
    | .error e => .error e
    | .ok _ =>
      if comment.length > 65533 then .error (.InvalidFormat "Comment too long")
      else
        let segmentSize := comment.length + 2
        let commentSegment :=
          0xFF :: 0xFE :: (segmentSize / 256 % 256) :: (segmentSize % 256) :: comment
        match writeWalk data commentSegment data.length 2 false with
        | .error e => .error e
        | .ok suffix =>
          let output := 0xFF :: 0xD8 :: suffix
          match validate_jpeg_decode v output with
          | .error e => .error e
          | .ok _ => .ok output

/-- Specification-side observer for claim C3: the same marker walk as
`read_comment`, collecting the payloads of ALL COM segments up to SOS (or
the end of the marker stream).  "The stream contains exactly one COM
segment with payload `s`" is `comSegments y = .ok [s]`. -/
def comWalk (data : List Nat) : Nat → Nat → Except Error (List (List Nat))
  | 0, _ => .error (.ParseError "fuel")
  | fuel + 1, pos =>
    if pos < data.length - 1 then
      if byteAt data pos ≠ 0xFF then .error (.ParseError "Invalid JPEG marker")
      else
        let marker := byteAt data (pos + 1)
        let pos := pos + 2
        if marker = 0xDA then .ok []
        else if 0xD0 ≤ marker ∧ marker ≤ 0xD9 then comWalk data fuel pos
        else if pos + 2 > data.length then .error (.ParseError "Unexpected end of JPEG data")
        else
          let segmentSize := be16at data pos
          if segmentSize < 2 then .error (.ParseError "Invalid segment size")
          else
            let segmentEnd := pos + segmentSize
            if segmentEnd > data.length then .error (.ParseError "Segment extends beyond file")
            else
              (comWalk data fuel segmentEnd).map
                (fun r => (if marker = 0xFE then [slice data (pos + 2) segmentEnd] else []) ++ r)
    else .ok []

/-- All COM payloads of a JPEG stream, at segment level. -/
def comSegments (data : List Nat) : Except Error (List (List Nat)) :=
  comWalk data data.length 2

/-! ## PNG (`src/png.rs`) -/

/-- The 8-byte PNG signature. -/
def PNG_SIG : List Nat := [137, 80, 78, 71, 13, 10, 26, 10]

/-- `TextChunk` (png.rs:8-11); both fields are the UTF-8 bytes of the Rust
strings (see the header note on the string model). -/
structure TextChunk where
  keyword : List Nat
  text : List Nat
deriving DecidableEq, Repr

/-- `validate_png_decode` (png.rs:240-285): the external `png` crate is
abstracted by `v`; every failure path produces `Error::InvalidFormat`. -/
def validate_png_decode (v : List Nat → Bool) (data : List Nat) : Except Error Unit :=
  if v data then .ok () else .error (.InvalidFormat "Invalid PNG")

/-- Chunk-type byte strings. -/
def IHDRb : List Nat := [73, 72, 68, 82]
def PLTEb : List Nat := [80, 76, 84, 69]
def IDATb : List Nat := [73, 68, 65, 84]
def IENDb : List Nat := [73, 69, 78, 68]
def tRNSb : List Nat := [116, 82, 78, 83]
def gAMAb : List Nat := [103, 65, 77, 65]
def cHRMb : List Nat := [99, 72, 82, 77]
def sRGBb : List Nat := [115, 82, 71, 66]
def iCCPb : List Nat := [105, 67, 67, 80]
def sBITb : List Nat := [115, 66, 73, 84]
def pHYsb : List Nat := [112, 72, 89, 115]
def tEXtb : List Nat := [116, 69, 88, 116]
def zTXtb : List Nat := [122, 84, 88, 116]
def iTXtb : List Nat := [105, 84, 88, 116]
def bKGDb : List Nat := [98, 75, 71, 68]

/-- `CRITICAL_CHUNKS` (png.rs:14-20), as byte strings. -/
def CRITICAL_CHUNKS : List (List Nat) :=
  [IHDRb, PLTEb, IDATb, IENDb, tRNSb, gAMAb, cHRMb, sRGBb, iCCPb, sBITb, pHYsb]

/-- `critical_set.contains(chunk_type)`: a `&str` equals a chunk-type
entry iff its UTF-8 bytes do, so the HashSet lookup is byte-list
membership. -/
def isCritical (ty : List Nat) : Bool := decide (ty ∈ CRITICAL_CHUNKS)

/-- Continuation-byte test for UTF-8. -/
def utf8Cont (b : Nat) : Bool := decide (0x80 ≤ b ∧ b ≤ 0xBF)

/-- `std::str::from_utf8` succeeds exactly on RFC-3629-valid byte
sequences; this is the standard validity check (used by `clean_chunks` on
the 4 chunk-type bytes). -/
def utf8Valid : List Nat → Bool
  | [] => true
  | b :: rest =>
    if b ≤ 0x7F then utf8Valid rest
    else if 0xC2 ≤ b ∧ b ≤ 0xDF then
      match rest with
      | c1 :: r => utf8Cont c1 && utf8Valid r
      | [] => false
    else if b = 0xE0 then
      match rest with
      | c1 :: c2 :: r => decide (0xA0 ≤ c1 ∧ c1 ≤ 0xBF) && utf8Cont c2 && utf8Valid r
      | _ => false
    else if (0xE1 ≤ b ∧ b ≤ 0xEC) ∨ b = 0xEE ∨ b = 0xEF then
      match rest with
      | c1 :: c2 :: r => utf8Cont c1 && utf8Cont c2 && utf8Valid r
      | _ => false
    else if b = 0xED then
      match rest with
      | c1 :: c2 :: r => decide (0x80 ≤ c1 ∧ c1 ≤ 0x9F) && utf8Cont c2 && utf8Valid r
      | _ => false
    else if b = 0xF0 then
      match rest with
      | c1 :: c2 :: c3 :: r =>
        decide (0x90 ≤ c1 ∧ c1 ≤ 0xBF) && utf8Cont c2 && utf8Cont c3 && utf8Valid r
      | _ => false
    else if 0xF1 ≤ b ∧ b ≤ 0xF3 then
      match rest with
      | c1 :: c2 :: c3 :: r => utf8Cont c1 && utf8Cont c2 && utf8Cont c3 && utf8Valid r
      | _ => false
    else if b = 0xF4 then
      match rest with
      | c1 :: c2 :: c3 :: r =>
        decide (0x80 ≤ c1 ∧ c1 ≤ 0x8F) && utf8Cont c2 && utf8Cont c3 && utf8Valid r
      | _ => false
    else false

/-- One reflection round of CRC-32 (polynomial `0xEDB88320`), `n` bit
steps. -/
def crcBits : Nat → Nat → Nat
  | 0, crc => crc
  | n + 1, crc => crcBits n (if crc % 2 = 1 then Nat.xor (crc / 2) 0xEDB88320 else crc / 2)

/-- IEEE CRC-32 over a byte list (the algorithm `crc32fast` computes). -/
def crc32 (bytes : List Nat) : Nat :=
  Nat.xor (bytes.foldl (fun crc b => crcBits 8 (Nat.xor crc (b % 256))) 0xFFFFFFFF) 0xFFFFFFFF

/-- `calculate_crc` (png.rs:232-237). -/
def calculate_crc (chunkType data : List Nat) : Nat := crc32 (chunkType ++ data)

/-- The chunk walk of `clean_chunks` (png.rs:40-74).  Returns the bytes
the loop appends to `output` from position `pos` on. -/
def cleanPngWalk (data : List Nat) : Nat → Nat → Except Error (List Nat)
  | 0, _ => .error (.ParseError "fuel")
  | fuel + 1, pos =>
    if pos < data.length then
      if pos + 4 > data.length then .error (.ParseError "Unexpected end of PNG data")
      else
        let length := be32at data pos
        if pos + 8 > data.length then .error (.ParseError "Unexpected end of PNG data")
        else
          let chunkType := slice data (pos + 4) (pos + 8)
          if ¬utf8Valid chunkType then .error (.ParseError "Invalid chunk type")
          else
            let chunkSize := 12 + length
            if pos + chunkSize > data.length then .error (.ParseError "Chunk extends beyond file")
            else
              let kept := if isCritical chunkType then slice data pos (pos + chunkSize) else []
              if chunkType = IENDb then .ok kept
              else (cleanPngWalk data fuel (pos + chunkSize)).map (kept ++ ·)
    else .ok []

/-- `clean_chunks` (png.rs:23-80). -/
def clean_chunks (v : List Nat → Bool) (data : List Nat) : Except Error (List Nat) :=
  if data.length < 8 ∨ data.take 8 ≠ PNG_SIG then
    .error (.InvalidFormat "Not a valid PNG file")
  else
    match validate_png_decode v data with
    | .error e => .error e
    | .ok _ =>
      match cleanPngWalk data data.length 8 with
      | .error e => .error e
      | .ok suffix =>
        let output := data.take 8 ++ suffix
        match validate_png_decode v output with
        | .error e => .error e
        | .ok _ => .ok output

/-- Specification-side observer for the PNG claims: the same walk as
`clean_chunks`, collecting each chunk as a `(type bytes, raw bytes)` pair
instead of filtering.  Shares every check (and error) with
`cleanPngWalk`. -/
def collectChunks (data : List Nat) : Nat → Nat → Except Error (List (List Nat × List Nat))
  | 0, _ => .error (.ParseError "fuel")
  | fuel + 1, pos =>
    if pos < data.length then
      if pos + 4 > data.length then .error (.ParseError "Unexpected end of PNG data")
      else
        let length := be32at data pos
        if pos + 8 > data.length then .error (.ParseError "Unexpected end of PNG data")
        else
          let chunkType := slice data (pos + 4) (pos + 8)
          if ¬utf8Valid chunkType then .error (.ParseError "Invalid chunk type")
          else
            let chunkSize := 12 + length
            if pos + chunkSize > data.length then .error (.ParseError "Chunk extends beyond file")
            else
              let entry := (chunkType, slice data pos (pos + chunkSize))
              if chunkType = IENDb then .ok [entry]
              else (collectChunks data fuel (pos + chunkSize)).map (entry :: ·)
    else .ok []

/-- The chunk walk of `read_text_chunks` (png.rs:95-140).  Malformed
headers end the scan silently (`break`), so the walk is total and returns
only the collected entries. -/
def readTextWalk (data : List Nat) : Nat → Nat → List TextChunk
  | 0, _ => []
  | fuel + 1, pos =>
    if pos < data.length then
      if pos + 4 > data.length then []
      else
        let length := be32at data pos
        if pos + 8 > data.length then []
        else
          let chunkType := slice data (pos + 4) (pos + 8)
          let chunkSize := 12 + length
          if pos + chunkSize > data.length then []
          else
            let here : List TextChunk :=
              if chunkType = tEXtb ∧ length > 0 then
                let chunkData := slice data (pos + 8) (pos + 8 + length)
                match chunkData.findIdx? (· == 0) with
                | some nullPos =>
                  [⟨chunkData.take nullPos,
                    if nullPos + 1 < chunkData.length then chunkData.drop (nullPos + 1) else []⟩]
                | none => []
              else []
            if chunkType = IENDb then here
            else here ++ readTextWalk data fuel (pos + chunkSize)
    else []

/-- `read_text_chunks` (png.rs:83-143). -/
def read_text_chunks (v : List Nat → Bool) (data : List Nat) :
    Except Error (List TextChunk) :=
  if data.length < 8 ∨ data.take 8 ≠ PNG_SIG then
    .error (.InvalidFormat "Not a valid PNG file")
  else
    match validate_png_decode v data with
    | .error e => .error e
    | .ok _ => .ok (readTextWalk data data.length 8)

/-- The IEND-locating walk of `add_text_chunk` (png.rs:179-199); `none`
models "loop ended with `iend_pos` still `None`". -/
def locateIend (data : List Nat) : Nat → Nat → Option Nat
  | 0, _ => none
  | fuel + 1, pos =>
    if pos < data.length then
      if pos + 8 > data.length then none
      else
        let length := be32at data pos
        let chunkType := slice data (pos + 4) (pos + 8)
        let chunkSize := 12 + length
        if chunkType = IENDb then some pos
        else if pos + chunkSize > data.length then none
        else locateIend data fuel (pos + chunkSize)
    else none

/-- Byte-level form of the keyword test of png.rs:163-165
(`c.is_ascii() && (c.is_alphanumeric() || c == ' ')`): a string's
characters are all ASCII-and-(alphanumeric-or-space) iff all of its UTF-8
bytes are (every byte of a non-ASCII character, leading or continuation,
is ≥ 0x80, and an ASCII character is its own single byte). -/
def isKeywordByte (b : Nat) : Bool :=
  decide (b < 128 ∧ ((48 ≤ b ∧ b ≤ 57) ∨ (65 ≤ b ∧ b ≤ 90) ∨ (97 ≤ b ∧ b ≤ 122) ∨ b = 32))

/-- `add_text_chunk` (png.rs:146-229); `keyword` and `text` are the UTF-8
bytes of the Rust `&str` arguments (so `keyword.len()` is
`keyword.length`). -/
def add_text_chunk (v : List Nat → Bool) (data keyword text : List Nat) :
    Except Error (List Nat) :=
  if data.length < 8 ∨ data.take 8 ≠ PNG_SIG then
    .error (.InvalidFormat "Not a valid PNG file")
  else
    match validate_png_decode v data with
    | .error e => .error e
    | .ok _ =>
      if keyword.length = 0 ∨ keyword.length > 79 then
        .error (.InvalidFormat "Keyword must be 1-79 characters")
      else if ¬keyword.all isKeywordByte then
        .error (.InvalidFormat "Keyword must contain only Latin characters")
      else
        match locateIend data data.length 8 with
        | none => .error (.ParseError "IEND chunk not found")
        | some iendStart =>
          let chunkData := keyword ++ 0 :: text
          let output := data.take 8 ++ slice data 8 iendStart ++
            be32enc chunkData.length ++ tEXtb ++ chunkData ++
            be32enc (calculate_crc tEXtb chunkData) ++ data.drop iendStart
          match validate_png_decode v output with
          | .error e => .error e
          | .ok _ => .ok output

instance {ε α : Type} [DecidableEq ε] [DecidableEq α] : DecidableEq (Except ε α) := fun
  | .ok a, .ok b =>
    if h : a = b then .isTrue (by rw [h]) else .isFalse (by intro hc; cases hc; exact h rfl)
  | .ok _, .error _ => .isFalse (by intro h; cases h)
  | .error _, .ok _ => .isFalse (by intro h; cases h)
  | .error e, .error f =>
    if h : e = f then .isTrue (by rw [h]) else .isFalse (by intro hc; cases hc; exact h rfl)

/-! ## Concrete inputs for counterexamples -/

/-- A JPEG stream: SOI, one EXIF APP1 with orientation 1, SOS, and entropy
data that happens to contain the byte pair `FF E0` (followed by bytes
reading as segment size 2). -/
def c1Input : List Nat :=
  [0xFF, 0xD8] ++ create_minimal_exif 1 ++ [0xFF, 0xDA, 0xFF, 0xE0, 0x00, 0x02, 0x00, 0x00]

/-- The rebuilt (pre-splice) stream for `c1Input`: SOI directly followed
by the SOS marker and the copied entropy bytes — no APP0 segment. -/
def c1Rebuilt : List Nat := [0xFF, 0xD8] ++ [0xFF, 0xDA] ++ [0xFF, 0xE0, 0x00, 0x02, 0x00, 0x00]

/-- What `clean_metadata vTrue c1Input` actually returns: the EXIF APP1
was inserted INSIDE the entropy data (after the spurious `FF E0 00 02`),
not immediately after SOI. -/
def c1Actual : List Nat :=
  [0xFF, 0xD8, 0xFF, 0xDA, 0xFF, 0xE0, 0x00, 0x02] ++ create_minimal_exif 1 ++ [0x00, 0x00]

/-- A JPEG stream: SOI, EXIF APP1 with orientation 1, a COM segment (so
that cleaning changes the bytes), SOS. -/
def c2Input : List Nat :=
  [0xFF, 0xD8] ++ create_minimal_exif 1 ++ [0xFF, 0xFE, 0x00, 0x03, 0x63] ++
    [0xFF, 0xDA, 0x00, 0x00]

/-- A validator that accepts exactly `c2Input` (the external decoder is
abstract; this instantiation witnesses that the splice path never
consults it on the rebuilt buffer). -/
def c2Validator (d : List Nat) : Bool := d = c2Input

/-- What `clean_metadata c2Validator c2Input` returns. -/
def c2Out : List Nat := [0xFF, 0xD8] ++ create_minimal_exif 1 ++ [0xFF, 0xDA, 0x00, 0x00]

/-- A JPEG stream: SOI, EXIF APP1 with orientation 1, a DQT segment whose
payload contains the byte pair `FF E0` not aligned with the segment's
end, then SOS. -/
def c7Input : List Nat :=
  [0xFF, 0xD8] ++ create_minimal_exif 1 ++
    [0xFF, 0xDB, 0x00, 0x07, 0xFF, 0xE0, 0x00, 0x02, 0x41] ++ [0xFF, 0xDA]

/-- What `clean_metadata vTrue c7Input` returns: the EXIF APP1 was
inserted inside the DQT payload, desynchronising the segment stream. -/
def c7Out : List Nat :=
  [0xFF, 0xD8, 0xFF, 0xDB, 0x00, 0x07, 0xFF, 0xE0, 0x00, 0x02] ++ create_minimal_exif 1 ++
    [0x41, 0xFF, 0xDA]

/-- A PNG stream: signature, one tEXt chunk with payload "ABC" (no null
byte anywhere), IEND. -/
def c6Png : List Nat :=
  PNG_SIG ++ [0, 0, 0, 3] ++ tEXtb ++ [65, 66, 67] ++ [0, 0, 0, 0] ++
    [0, 0, 0, 0] ++ IENDb ++ [0, 0, 0, 0]

/-! ## Claim C8 -/

/-- C8: for every orientation value `o ∈ [1,8]`, `create_minimal_exif o`
is an APP1 segment of the fixed byte length 36 (independent of `o`), with
the back-patched big-endian length field 0x0022, the `Exif\0\0`
identifier, the little-endian TIFF header (magic 42, IFD0 offset 8), a
single IFD0 entry for tag 0x0112 of type SHORT, count 1, inline value
`o`, and a zero next-IFD pointer; and `extract_orientation_from_exif`
applied to the TIFF payload (the bytes after `Exif\0\0`) returns
`some o`. -/
theorem create_minimal_exif_roundtrip (o : Nat) (h1 : 1 ≤ o) (h2 : o ≤ 8) :
    (create_minimal_exif o).length = 36 ∧
    slice (create_minimal_exif o) 0 4 = [0xFF, 0xE1, 0x00, 0x22] ∧
    slice (create_minimal_exif o) 4 10 = [0x45, 0x78, 0x69, 0x66, 0x00, 0x00] ∧
    slice (create_minimal_exif o) 10 18 = [0x49, 0x49, 0x2A, 0x00, 0x08, 0x00, 0x00, 0x00] ∧
    slice (create_minimal_exif o) 18 36 =
      [0x01, 0x00, 0x12, 0x01, 0x03, 0x00, 0x01, 0x00, 0x00, 0x00,
       o, 0x00, 0x00, 0x00, 0x00, 0x00, 0x00, 0x00] ∧
    extract_orientation_from_exif ((create_minimal_exif o).drop 10) = some o := by
  interval_cases o <;> exact ⟨by decide, by decide, by decide, by decide, by decide, by decide⟩

/-- Witness for `create_minimal_exif_roundtrip` at `o = 6`. -/
theorem create_minimal_exif_roundtrip_witness :
    (1 ≤ 6 ∧ 6 ≤ 8) ∧
    ((create_minimal_exif 6).length = 36 ∧
      extract_orientation_from_exif ((create_minimal_exif 6).drop 10) = some 6) :=
  ⟨⟨by decide, by decide⟩,
   (create_minimal_exif_roundtrip 6 (by decide) (by decide)).1,
   (create_minimal_exif_roundtrip 6 (by decide) (by decide)).2.2.2.2.2⟩

/-! ## Counterexamples for C1, C2, C6, C7 -/

/-- C1 fails on the code: on `c1Input`, `clean_metadata` accepts the
input and captures orientation 1, the rebuilt stream contains no APP0
segment (it is SOI immediately followed by SOS), yet the returned buffer
is NOT the synthesized EXIF segment spliced immediately after SOI — the
insertion loop matched a spurious `FF E0` byte pair inside the copied
entropy data and spliced the segment there. -/
theorem c1_counterexample :
    clean_metadata vTrue c1Input = .ok c1Actual ∧
    cleanOutput c1Input = .ok (c1Rebuilt, some 1) ∧
    c1Rebuilt = [0xFF, 0xD8] ++ [0xFF, 0xDA] ++ [0xFF, 0xE0, 0x00, 0x02, 0x00, 0x00] ∧
    c1Actual ≠ [0xFF, 0xD8] ++ create_minimal_exif 1 ++ c1Rebuilt.drop 2 := by
  refine ⟨by decide, by decide, by decide, by decide⟩

/-- C2 fails on the code: on `c2Input` with a validator accepting exactly
the input, `clean_metadata` captures orientation 1, splices the minimal
EXIF segment, and returns the rebuilt buffer `c2Out` as `Ok` even though
the validator rejects `c2Out` — the splice path returns without the final
re-validation, so a validator failure on the rebuilt buffer is NOT
surfaced as `InvalidFormat`. -/
theorem c2_counterexample :
    clean_metadata c2Validator c2Input = .ok c2Out ∧ c2Validator c2Out = false := by
  refine ⟨by decide, by decide⟩

/-- C6 fails on the code: `c6Png` is accepted and contains a tEXt chunk
of nonzero length whose payload `[65, 66, 67]` has no null byte, yet
`read_text_chunks` returns no entry at all for it (the chunk is skipped),
rather than an entry with an empty keyword and the whole payload as
text. -/
theorem c6_counterexample :
    read_text_chunks vTrue c6Png = .ok [] ∧
    (Except.ok [] : Except Error (List TextChunk)) ≠
      .ok [⟨[], [65, 66, 67]⟩] := by
  refine ⟨by decide, by decide⟩

/-- C7 fails on the code (JPEG half): `clean_metadata vTrue c7Input`
succeeds with `c7Out`, but `clean_metadata vTrue c7Out` is a
`ParseError`, not `Ok c7Out` — the EXIF splice landed inside the DQT
payload of the rebuilt stream, so the second walk desynchronises. -/
theorem c7_counterexample :
    clean_metadata vTrue c7Input = .ok c7Out ∧
    clean_metadata vTrue c7Out = .error (.ParseError "Invalid JPEG marker") := by
  refine ⟨by decide, by decide⟩

/-! ## List-access helper lemmas -/

theorem byteAt_cons_zero (a : Nat) (l : List Nat) : byteAt (a :: l) 0 = a := rfl

theorem byteAt_cons_succ (a : Nat) (l : List Nat) (i : Nat) :
    byteAt (a :: l) (i + 1) = byteAt l i := rfl

theorem byteAt_append (p d : List Nat) (i : Nat) :
    byteAt (p ++ d) (p.length + i) = byteAt d i := by
  induction p with
  | nil => simp
  | cons a p ih =>
    have h : (a :: p).length + i = (p.length + i) + 1 := by simp [Nat.add_right_comm]
    rw [h]
    show byteAt (p ++ d) (p.length + i) = byteAt d i
    exact ih

theorem drop_append_len (p d : List Nat) (i : Nat) :
    (p ++ d).drop (p.length + i) = d.drop i := by
  rw [List.drop_append_eq_append_drop]
  simp

theorem drop_append_len_zero (p d : List Nat) : (p ++ d).drop p.length = d := by
  have h := drop_append_len p d 0
  rw [Nat.add_zero] at h
  rw [h, List.drop_zero]

theorem slice_append (p d : List Nat) (a b : Nat) :
    slice (p ++ d) (p.length + a) (p.length + b) = slice d a b := by
  unfold slice
  rw [drop_append_len]
  congr 1
  omega

theorem slice_zero_len (d t : List Nat) : slice (d ++ t) 0 d.length = d := by
  unfold slice
  simp [List.take_left]

theorem slice_append_exact (p d t : List Nat) :
    slice (p ++ d ++ t) p.length (p.length + d.length) = d := by
  have h1 : p ++ d ++ t = p ++ (d ++ t) := by simp
  rw [h1]
  have := slice_append p (d ++ t) 0 d.length
  simpa [slice_zero_len] using this

theorem drop_eq_byteAt_cons (l : List Nat) (i : Nat) (h : i < l.length) :
    l.drop i = byteAt l i :: l.drop (i + 1) := by
  rw [List.drop_eq_getElem_cons h]
  unfold byteAt
  rw [List.getD_eq_getElem _ _ h]

theorem slice_eq_byteAt_cons (l : List Nat) (a b : Nat) (ha : a < l.length) (hb : a < b) :
    slice l a b = byteAt l a :: slice l (a + 1) b := by
  unfold slice
  rw [drop_eq_byteAt_cons l a ha]
  have : b - a = (b - (a + 1)) + 1 := by omega
  rw [this, List.take_succ_cons]

/-! ## JPEG segment runs -/

/-- A serialized JPEG header segment: `sized m b0 b1 payload` is
`FF m b0 b1 ++ payload` (the two size bytes followed by the payload);
`rst m` is a standalone marker `FF m`. -/
inductive JSeg where
  | sized (m b0 b1 : Nat) (payload : List Nat)
  | rst (m : Nat)

/-- The bytes of a serialized segment. -/
def segBytes : JSeg → List Nat
  | .sized m b0 b1 payload => 0xFF :: m :: b0 :: b1 :: payload
  | .rst m => [0xFF, m]

/-- The marker of a segment. -/
def segMarker : JSeg → Nat
  | .sized m _ _ _ => m
  | .rst m => m

/-- Concatenation of serialized segments. -/
def joinSegs (items : List JSeg) : List Nat := (items.map segBytes).flatten

/-- Shape conditions under which every marker walk of jpeg.rs traverses
the serialized segment in exactly one step: a sized segment is neither
SOS nor a standalone marker and its size field equals its byte count
minus 2; a standalone segment has a restart-range marker. -/
def segWF : JSeg → Prop
  | .sized m b0 b1 payload =>
      m ≠ 0xDA ∧ ¬(0xD0 ≤ m ∧ m ≤ 0xD9) ∧ 256 * b0 + b1 = payload.length + 2
  | .rst m => 0xD0 ≤ m ∧ m ≤ 0xD9

/-- The segment is not a COM segment. -/
def notCom (s : JSeg) : Prop := segMarker s ≠ 0xFE

@[simp] theorem joinSegs_nil : joinSegs [] = [] := rfl

@[simp] theorem joinSegs_cons (s : JSeg) (l : List JSeg) :
    joinSegs (s :: l) = segBytes s ++ joinSegs l := by
  unfold joinSegs
  simp

theorem segBytes_length_ge (s : JSeg) : 2 ≤ (segBytes s).length := by
  cases s <;> simp [segBytes]

theorem joinSegs_length_ge (items : List JSeg) :
    2 * items.length ≤ (joinSegs items).length := by
  induction items with
  | nil => simp
  | cons s l ih =>
    rw [joinSegs_cons]
    have := segBytes_length_ge s
    simp only [List.length_append, List.length_cons]
    omega

/-- All facts a marker walk needs to traverse one well-formed sized
segment lying at position `p.length` of the buffer. -/
theorem sized_step_facts (y p rest : List Nat) (m b0 b1 : Nat) (payload : List Nat)
    (hy : y = p ++ segBytes (.sized m b0 b1 payload) ++ rest)
    (hsz : 256 * b0 + b1 = payload.length + 2) :
    p.length < y.length - 1 ∧
    byteAt y p.length = 0xFF ∧
    byteAt y (p.length + 1) = m ∧
    p.length + 2 + 2 ≤ y.length ∧
    be16at y (p.length + 2) = payload.length + 2 ∧
    p.length + 2 + (payload.length + 2) =
      p.length + (segBytes (.sized m b0 b1 payload)).length ∧
    p.length + 2 + (payload.length + 2) ≤ y.length ∧
    slice y (p.length + 2) (p.length + 2 + (payload.length + 2)) = b0 :: b1 :: payload := by
  have hlen : y.length = p.length + (4 + payload.length) + rest.length := by
    subst hy; simp [segBytes]; omega
  have hseg : segBytes (.sized m b0 b1 payload) ++ rest =
      0xFF :: m :: b0 :: b1 :: (payload ++ rest) := by simp [segBytes]
  have hy' : y = p ++ (0xFF :: m :: b0 :: b1 :: (payload ++ rest)) := by
    rw [hy, List.append_assoc, hseg]
  refine ⟨by omega, ?_, ?_, by omega, ?_, ?_, by omega, ?_⟩
  · have := byteAt_append p (0xFF :: m :: b0 :: b1 :: (payload ++ rest)) 0
    rw [hy']
    simpa using this
  · have := byteAt_append p (0xFF :: m :: b0 :: b1 :: (payload ++ rest)) 1
    rw [hy']
    simpa [byteAt] using this
  · have h2 := byteAt_append p (0xFF :: m :: b0 :: b1 :: (payload ++ rest)) 2
    have h3 := byteAt_append p (0xFF :: m :: b0 :: b1 :: (payload ++ rest)) 3
    rw [hy', be16at]
    rw [show p.length + 3 = p.length + 2 + 1 by omega] at h3 ⊢
    rw [h2, h3]
    simpa [byteAt] using hsz
  · simp only [segBytes, List.length_cons]; omega
  · rw [hy']
    have := slice_append p (0xFF :: m :: b0 :: b1 :: (payload ++ rest)) 2 (2 + (payload.length + 2))
    rw [show p.length + 2 + (payload.length + 2) = p.length + (2 + (payload.length + 2)) by omega]
    rw [this]
    simp [slice, List.take_left]

/-- All facts a marker walk needs to traverse one standalone (restart)
segment lying at position `p.length` of the buffer. -/
theorem rst_step_facts (y p rest : List Nat) (m : Nat)
    (hy : y = p ++ segBytes (.rst m) ++ rest) :
    p.length < y.length - 1 ∧
    byteAt y p.length = 0xFF ∧
    byteAt y (p.length + 1) = m ∧
    p.length + 2 = p.length + (segBytes (.rst m)).length := by
  have hlen : y.length = p.length + 2 + rest.length := by
    subst hy; simp [segBytes]; omega
  have hy' : y = p ++ (0xFF :: m :: rest) := by
    rw [hy, List.append_assoc]; rfl
  refine ⟨by omega, ?_, ?_, by simp [segBytes]⟩
  · have := byteAt_append p (0xFF :: m :: rest) 0
    rw [hy']
    simpa using this
  · have := byteAt_append p (0xFF :: m :: rest) 1
    rw [hy']
    simpa [byteAt] using this

/-- A marker walk's skip over a run of well-formed non-COM segments:
`readCommentWalk` passes over the run, one fuel unit per segment. -/
theorem readCommentWalk_skip (y : List Nat) (items : List JSeg) :
    ∀ (p t : List Nat) (f : Nat),
      y = p ++ joinSegs items ++ t →
      (∀ s ∈ items, segWF s ∧ notCom s) →
      readCommentWalk y (items.length + f) p.length =
        readCommentWalk y f (p.length + (joinSegs items).length) := by
  induction items with
  | nil => intro p t f hy hall; simp [joinSegs_nil]
  | cons s l ih =>
    intro p t f hy hall
    have hy' : y = p ++ segBytes s ++ (joinSegs l ++ t) := by
      rw [hy, joinSegs_cons]; simp
    have hwf := (hall s (by simp)).1
    have hnc := (hall s (by simp)).2
    have hfuel : (s :: l).length + f = (l.length + f) + 1 := by simp [Nat.add_right_comm]
    rw [hfuel]
    have hstep : readCommentWalk y ((l.length + f) + 1) p.length =
        readCommentWalk y (l.length + f) (p.length + (segBytes s).length) := by
      cases s with
      | rst m =>
        obtain ⟨hg, hFF, hm, hpos⟩ := rst_step_facts y p (joinSegs l ++ t) m hy'
        have hm1 : m ≠ 0xDA := by rcases hwf with ⟨h1, h2⟩; omega
        simp only [readCommentWalk, hg, if_pos, hFF, hm]
        rw [if_neg (by simp), if_neg (by simp [hm1]),
          if_pos (show 0xD0 ≤ m ∧ m ≤ 0xD9 from hwf), ← hpos]
      | sized m b0 b1 payload =>
        obtain ⟨hwf1, hwf2, hwf3⟩ := hwf
        obtain ⟨hg, hFF, hm, hb2, hbe, hpos, hend, hslice⟩ :=
          sized_step_facts y p (joinSegs l ++ t) m b0 b1 payload hy' hwf3
        have hncm : m ≠ 0xFE := hnc
        simp only [readCommentWalk, hg, if_pos, hFF, hm, hbe]
        rw [if_neg (by simp), if_neg (by simp [hwf1]), if_neg (by simpa using hwf2),
          if_neg (by omega), if_neg (by omega), if_neg (by omega), if_neg (by simp [hncm]),
          ← hpos]
    rw [hstep]
    have := ih (p ++ segBytes s) t f (by rw [hy']; simp) (fun a ha => hall a (by simp [ha]))
    simp only [List.length_append] at this
    rw [joinSegs_cons]
    simp only [List.length_append]
    rw [← Nat.add_assoc]
    exact this

theorem slice_length (d : List Nat) (a b : Nat) (h : b ≤ d.length) :
    (slice d a b).length = b - a := by
  simp [slice]
  omega

theorem slice_take (d : List Nat) (a b k : Nat) (h : a + k ≤ b) :
    (slice d a b).take k = slice d a (a + k) := by
  simp only [slice, List.take_take]
  congr 1
  omega

/-- A buffer region whose first 2 bytes are a big-endian size covering the
region is one serialized sized segment. -/
theorem slice_as_segBytes (data : List Nat) (pos size : Nat) (h2 : 2 ≤ size)
    (hend : pos + size ≤ data.length) (hbe : be16at data pos = size) :
    ∃ b0 b1 payload, slice data pos (pos + size) = b0 :: b1 :: payload ∧
      byteAt data pos = b0 ∧ byteAt data (pos + 1) = b1 ∧
      payload = slice data (pos + 2) (pos + size) ∧
      256 * b0 + b1 = payload.length + 2 ∧ payload.length + 2 = size := by
  have hp0 : pos < data.length := by omega
  have hp1 : pos + 1 < data.length := by omega
  have hlen : (slice data (pos + 2) (pos + size)).length = size - 2 := by
    rw [slice_length data _ _ hend]
    omega
  refine ⟨byteAt data pos, byteAt data (pos + 1), slice data (pos + 2) (pos + size),
    ?_, rfl, rfl, rfl, ?_, by omega⟩
  · rw [slice_eq_byteAt_cons data pos (pos + size) hp0 (by omega),
      slice_eq_byteAt_cons data (pos + 1) (pos + size) hp1 (by omega)]
  · rw [hlen]
    rw [be16at] at hbe
    omega

/-- `readCommentWalk` at a COM segment whose payload is `s`: returns
`some s` in one step. -/
theorem readCommentWalk_at_com (y p s t : List Nat) (f : Nat) (hs : s.length ≤ 65533)
    (hy : y = p ++ (0xFF :: 0xFE :: ((s.length + 2) / 256 % 256) ::
      ((s.length + 2) % 256) :: s) ++ t) :
    readCommentWalk y (f + 1) p.length = .ok (some s) := by
  set b0 := (s.length + 2) / 256 % 256 with hb0
  set b1 := (s.length + 2) % 256 with hb1
  have hsz : 256 * b0 + b1 = s.length + 2 := by
    rw [hb0, hb1]
    omega
  have hy' : y = p ++ segBytes (.sized 0xFE b0 b1 s) ++ t := hy
  obtain ⟨hg, hFF, hm, hb2, hbe, hpos, hend, hslice⟩ :=
    sized_step_facts y p t 0xFE b0 b1 s hy' hsz
  have hsl : slice y (p.length + 2 + 2) (p.length + 2 + (s.length + 2)) = s := by
    have h4 : y = (p ++ [0xFF, 0xFE, b0, b1]) ++ s ++ t := by
      rw [hy]; simp
    have := slice_append_exact (p ++ [0xFF, 0xFE, b0, b1]) s t
    rw [← h4] at this
    simp only [List.length_append, List.length_cons, List.length_nil] at this
    rw [show p.length + 2 + 2 = p.length + 4 by omega,
      show p.length + 2 + (s.length + 2) = p.length + 4 + s.length by omega]
    simpa using this
  simp only [readCommentWalk, hg, if_pos, hFF, hm, hbe]
  rw [if_neg (by simp), if_neg (by simp), if_neg (by simp), if_neg (by omega),
    if_neg (by omega), if_neg (by omega)]
  by_cases hzero : s.length = 0
  · rw [if_neg (by omega)]
    have : s = [] := List.length_eq_zero.mp hzero
    rw [this]
  · rw [if_pos (by omega), hsl]

/-- `comWalk` at a COM segment whose payload is `s`: collects `s` and
continues after the segment. -/
theorem comWalk_at_com (y p s t : List Nat) (f : Nat) (hs : s.length ≤ 65533)
    (hy : y = p ++ (0xFF :: 0xFE :: ((s.length + 2) / 256 % 256) ::
      ((s.length + 2) % 256) :: s) ++ t) :
    comWalk y (f + 1) p.length =
      (comWalk y f (p.length + 4 + s.length)).map (fun r => s :: r) := by
  set b0 := (s.length + 2) / 256 % 256 with hb0
  set b1 := (s.length + 2) % 256 with hb1
  have hsz : 256 * b0 + b1 = s.length + 2 := by
    rw [hb0, hb1]
    omega
  have hy' : y = p ++ segBytes (.sized 0xFE b0 b1 s) ++ t := hy
  obtain ⟨hg, hFF, hm, hb2, hbe, hpos, hend, hslice⟩ :=
    sized_step_facts y p t 0xFE b0 b1 s hy' hsz
  have hsl : slice y (p.length + 2 + 2) (p.length + 2 + (s.length + 2)) = s := by
    have h4 : y = (p ++ [0xFF, 0xFE, b0, b1]) ++ s ++ t := by
      rw [hy]; simp
    have := slice_append_exact (p ++ [0xFF, 0xFE, b0, b1]) s t
    rw [← h4] at this
    simp only [List.length_append, List.length_cons, List.length_nil] at this
    rw [show p.length + 2 + 2 = p.length + 4 by omega,
      show p.length + 2 + (s.length + 2) = p.length + 4 + s.length by omega]
    simpa using this
  simp only [comWalk, hg, if_pos, hFF, hm, hbe]
  rw [if_neg (by simp), if_neg (by simp), if_neg (by simp), if_neg (by omega),
    if_neg (by omega), if_neg (by omega)]
  rw [show p.length + 2 + (s.length + 2) = p.length + 4 + s.length by omega] at hsl ⊢
  rw [hsl]
  simp

/-- `comWalk` skip over a run of well-formed non-COM segments. -/
theorem comWalk_skip (y : List Nat) (items : List JSeg) :
    ∀ (p t : List Nat) (f : Nat),
      y = p ++ joinSegs items ++ t →
      (∀ s ∈ items, segWF s ∧ notCom s) →
      comWalk y (items.length + f) p.length =
        comWalk y f (p.length + (joinSegs items).length) := by
  induction items with
  | nil => intro p t f hy hall; simp [joinSegs_nil]
  | cons s l ih =>
    intro p t f hy hall
    have hy' : y = p ++ segBytes s ++ (joinSegs l ++ t) := by
      rw [hy, joinSegs_cons]; simp
    have hwf := (hall s (by simp)).1
    have hnc := (hall s (by simp)).2
    have hfuel : (s :: l).length + f = (l.length + f) + 1 := by simp [Nat.add_right_comm]
    rw [hfuel]
    have hstep : comWalk y ((l.length + f) + 1) p.length =
        comWalk y (l.length + f) (p.length + (segBytes s).length) := by
      cases s with
      | rst m =>
        obtain ⟨hg, hFF, hm, hpos⟩ := rst_step_facts y p (joinSegs l ++ t) m hy'
        have hm1 : m ≠ 0xDA := by rcases hwf with ⟨h1, h2⟩; omega
        simp only [comWalk, hg, if_pos, hFF, hm]
        rw [if_neg (by simp), if_neg (by simp [hm1]),
          if_pos (show 0xD0 ≤ m ∧ m ≤ 0xD9 from hwf), ← hpos]
      | sized m b0 b1 payload =>
        obtain ⟨hwf1, hwf2, hwf3⟩ := hwf
        obtain ⟨hg, hFF, hm, hb2, hbe, hpos, hend, hslice⟩ :=
          sized_step_facts y p (joinSegs l ++ t) m b0 b1 payload hy' hwf3
        have hncm : m ≠ 0xFE := hnc
        simp only [comWalk, hg, if_pos, hFF, hm, hbe]
        rw [if_neg (by simp), if_neg (by simp [hwf1]), if_neg (by simpa using hwf2),
          if_neg (by omega), if_neg (by omega), if_neg (by omega), ← hpos]
        rw [if_neg (by simp [hncm]), hpos]
        cases comWalk y (l.length + f) (p.length + (segBytes (JSeg.sized m b0 b1 payload)).length)
          <;> rfl
    rw [hstep]
    have := ih (p ++ segBytes s) t f (by rw [hy']; simp) (fun a ha => hall a (by simp [ha]))
    simp only [List.length_append] at this
    rw [joinSegs_cons]
    simp only [List.length_append]
    rw [← Nat.add_assoc]
    exact this

/-- `comWalk` at the end of the buffer. -/
theorem comWalk_end (y : List Nat) (pos f : Nat) (h : y.length - 1 ≤ pos) :
    comWalk y (f + 1) pos = .ok [] := by
  simp only [comWalk]
  rw [if_neg (by omega)]

/-- `comWalk` at an SOS marker: the walk stops. -/
theorem comWalk_at_sos (y p raw : List Nat) (f : Nat)
    (hy : y = p ++ (0xFF :: 0xDA :: raw)) :
    comWalk y (f + 1) p.length = .ok [] := by
  have hlen : y.length = p.length + 2 + raw.length := by
    subst hy; simp; omega
  have hFF : byteAt y p.length = 0xFF := by
    rw [hy]
    have := byteAt_append p (0xFF :: 0xDA :: raw) 0
    simpa using this
  have hm : byteAt y (p.length + 1) = 0xDA := by
    rw [hy]
    have := byteAt_append p (0xFF :: 0xDA :: raw) 1
    simpa [byteAt] using this
  simp only [comWalk, if_pos, hFF, hm]
  rw [if_pos (by omega), if_neg (by simp)]

theorem except_map_ok {α β : Type} (g : α → β) (e : Except Error α) (b : β)
    (h : e.map g = .ok b) : ∃ a, e = .ok a ∧ b = g a := by
  cases e with
  | error e => exact Except.noConfusion h
  | ok a =>
    refine ⟨a, rfl, ?_⟩
    have h' : (Except.ok (g a) : Except Error β) = .ok b := h
    cases h'
    rfl

/-- The shape of the bytes `writeWalk` produces once the comment has been
inserted: a run of well-formed non-COM segments, optionally ending with an
SOS marker and the verbatim remainder. -/
def AfterShape (T : List Nat) : Prop :=
  ∃ B t, T = joinSegs B ++ t ∧ (∀ s ∈ B, segWF s ∧ notCom s) ∧
    (t = [] ∨ ∃ raw, t = 0xFF :: 0xDA :: raw)

/-- The shape of the bytes `writeWalk` produces when the comment is still
pending: a run of well-formed non-COM segments, the comment segment, then
an `AfterShape` remainder. -/
def PreShape (comseg T : List Nat) : Prop :=
  ∃ A tail, T = joinSegs A ++ comseg ++ tail ∧ (∀ s ∈ A, segWF s ∧ notCom s) ∧
    AfterShape tail

theorem AfterShape_cons (s : JSeg) (r : List Nat) (hwf : segWF s) (hnc : notCom s)
    (h : AfterShape r) : AfterShape (segBytes s ++ r) := by
  obtain ⟨B, t, hT, hB, ht⟩ := h
  refine ⟨s :: B, t, by simp [hT, joinSegs_cons], ?_, ht⟩
  intro a ha
  rcases List.mem_cons.mp ha with h' | h'
  · subst h'; exact ⟨hwf, hnc⟩
  · exact hB a h'

theorem PreShape_cons (comseg : List Nat) (s : JSeg) (r : List Nat)
    (hwf : segWF s) (hnc : notCom s) (h : PreShape comseg r) :
    PreShape comseg (segBytes s ++ r) := by
  obtain ⟨A, tail, hT, hA, ht⟩ := h
  refine ⟨s :: A, tail, by simp [hT, joinSegs_cons], ?_, ht⟩
  intro a ha
  rcases List.mem_cons.mp ha with h' | h'
  · subst h'; exact ⟨hwf, hnc⟩
  · exact hA a h'

/-- Characterization of `write_comment`'s walk: on success it produces a
run of non-COM segments, the comment segment exactly once, and a non-COM
remainder. -/
theorem writeWalk_char (data comseg : List Nat) :
    ∀ (fuel pos : Nat) (ins : Bool) (W : List Nat),
      writeWalk data comseg fuel pos ins = .ok W →
      if ins then AfterShape W else PreShape comseg W := by
  intro fuel
  induction fuel with
  | zero => intro pos ins W h; exact Except.noConfusion h
  | succ fuel ih =>
    intro pos ins W h
    rw [writeWalk] at h
    by_cases hg : pos < data.length - 1
    · rw [if_pos hg] at h
      by_cases hFF : byteAt data pos ≠ 0xFF
      · rw [if_pos hFF] at h
        exact Except.noConfusion h
      · rw [if_neg hFF] at h
        by_cases hDA : byteAt data (pos + 1) = 0xDA
        · rw [if_pos hDA] at h
          have hW : W = (if ins then [] else comseg) ++
              0xFF :: byteAt data (pos + 1) :: data.drop (pos + 2) := by
            cases h; rfl
          cases ins with
          | true =>
            simp only [if_true] at hW
            simp only [if_pos]
            exact ⟨[], 0xFF :: 0xDA :: data.drop (pos + 2),
              by simp [hW, hDA], by simp, Or.inr ⟨_, rfl⟩⟩
          | false =>
            simp only [if_false] at hW
            rw [if_neg (show ¬(false = true) by simp)]
            refine ⟨[], 0xFF :: 0xDA :: data.drop (pos + 2), by simp [hW, hDA], by simp, ?_⟩
            exact ⟨[], 0xFF :: 0xDA :: data.drop (pos + 2), by simp, by simp, Or.inr ⟨_, rfl⟩⟩
        · rw [if_neg hDA] at h
          by_cases hstand : 0xD0 ≤ byteAt data (pos + 1) ∧ byteAt data (pos + 1) ≤ 0xD9
          · rw [if_pos hstand] at h
            obtain ⟨r, hr, hWr⟩ := except_map_ok _ _ _ h
            have hrec := ih (pos + 2) ins r hr
            have hwf : segWF (.rst (byteAt data (pos + 1))) := hstand
            have hnc : notCom (.rst (byteAt data (pos + 1))) := by
              show byteAt data (pos + 1) ≠ 0xFE
              omega
            have hWseg : W = segBytes (.rst (byteAt data (pos + 1))) ++ r := by
              simp [hWr, segBytes]
            cases ins with
            | true =>
              simp only [if_pos] at hrec ⊢
              rw [hWseg]
              exact AfterShape_cons _ _ hwf hnc hrec
            | false =>
              rw [if_neg (show ¬(false = true) by simp)] at hrec ⊢
              rw [hWseg]
              exact PreShape_cons _ _ _ hwf hnc hrec
          · rw [if_neg hstand] at h
            by_cases hb : pos + 2 + 2 > data.length
            · rw [if_pos hb] at h
              exact Except.noConfusion h
            · rw [if_neg hb] at h
              by_cases hsz : be16at data (pos + 2) < 2
              · rw [if_pos hsz] at h
                exact Except.noConfusion h
              · rw [if_neg hsz] at h
                by_cases hov : pos + 2 + be16at data (pos + 2) > data.length
                · rw [if_pos hov] at h
                  exact Except.noConfusion h
                · rw [if_neg hov] at h
                  obtain ⟨r, hr, hWr⟩ := except_map_ok _ _ _ h
                  obtain ⟨b0, b1, payload, hsl, hb0, hb1, hpl, hwfp, hszp⟩ :=
                    slice_as_segBytes data (pos + 2) (be16at data (pos + 2))
                      (by omega) (by omega) rfl
                  have hwfs : segWF (.sized (byteAt data (pos + 1)) b0 b1 payload) :=
                    ⟨hDA, hstand, hwfp⟩
                  have hsegB : 0xFF :: byteAt data (pos + 1) ::
                      slice data (pos + 2) (pos + 2 + be16at data (pos + 2)) =
                      segBytes (.sized (byteAt data (pos + 1)) b0 b1 payload) := by
                    rw [hsl]; rfl
                  by_cases hFE : byteAt data (pos + 1) = 0xFE
                  · have hDB : byteAt data (pos + 1) ≠ 0xDB := by omega
                    have hWr' : W = r := by
                      rw [hWr]
                      simp [hFE, hDB]
                    have hins : (ins || decide (byteAt data (pos + 1) = 0xDB)) = ins := by
                      simp [hDB]
                    rw [hins] at hr
                    have hrec := ih _ ins r hr
                    rw [hWr']
                    exact hrec
                  · by_cases hDB : byteAt data (pos + 1) = 0xDB
                    · have hins : (ins || decide (byteAt data (pos + 1) = 0xDB)) = true := by
                        simp [hDB]
                      rw [hins] at hr
                      have hrec := ih _ true r hr
                      simp only [if_pos] at hrec
                      cases ins with
                      | true =>
                        have hWr' : W = segBytes (.sized (byteAt data (pos + 1)) b0 b1 payload)
                            ++ r := by
                          rw [hWr, ← hsegB]
                          simp [hFE]
                        simp only [if_pos]
                        rw [hWr']
                        exact AfterShape_cons _ _ hwfs hFE hrec
                      | false =>
                        have hWr' : W = comseg ++
                            (segBytes (.sized (byteAt data (pos + 1)) b0 b1 payload) ++ r) := by
                          rw [hWr, ← hsegB]
                          simp [hFE, hDB]
                        rw [if_neg (show ¬(false = true) by simp)]
                        exact ⟨[], _, by simp [hWr'], by simp,
                          AfterShape_cons _ _ hwfs hFE hrec⟩
                    · have hins : (ins || decide (byteAt data (pos + 1) = 0xDB)) = ins := by
                        simp [hDB]
                      rw [hins] at hr
                      have hrec := ih _ ins r hr
                      have hWr' : W = segBytes (.sized (byteAt data (pos + 1)) b0 b1 payload)
                          ++ r := by
                        rw [hWr, ← hsegB]
                        simp [hFE, hDB]
                      cases ins with
                      | true =>
                        simp only [if_pos] at hrec ⊢
                        rw [hWr']
                        exact AfterShape_cons _ _ hwfs hFE hrec
                      | false =>
                        rw [if_neg (show ¬(false = true) by simp)] at hrec ⊢
                        rw [hWr']
                        exact PreShape_cons _ _ _ hwfs hFE hrec
    · rw [if_neg hg] at h
      cases ins with
      | true =>
        have hW : W = [] := by cases h; rfl
        simp only [if_pos]
        exact ⟨[], [], by simp [hW], by simp, Or.inl rfl⟩
      | false =>
        have hW : W = comseg := by cases h; rfl
        rw [if_neg (show ¬(false = true) by simp)]
        exact ⟨[], [], by simp [hW], by simp, ⟨[], [], by simp, by simp, Or.inl rfl⟩⟩

/-- The COM segment `write_comment` builds for the comment bytes `s`. -/
def comsegOf (s : List Nat) : List Nat :=
  0xFF :: 0xFE :: ((s.length + 2) / 256 % 256) :: ((s.length + 2) % 256) :: s

/-- Elimination of a successful `write_comment`: recover the comment
bound, the final validation, and the walk result. -/
theorem write_comment_ok_elim (v : List Nat → Bool) (x s y : List Nat)
    (h : write_comment v x s = .ok y) :
    s.length ≤ 65533 ∧ v y = true ∧
    ∃ W, writeWalk x (comsegOf s) x.length 2 false = .ok W ∧ y = 0xFF :: 0xD8 :: W := by
  by_cases h1 : x.length < 4 ∨ x.take 2 ≠ JPEG_SOI
  · rw [write_comment, if_pos h1] at h
    exact Except.noConfusion h
  by_cases hvx : v x = true
  case neg =>
    rw [write_comment, if_neg h1, validate_jpeg_decode, if_neg hvx] at h
    exact Except.noConfusion h
  have h2 : (if s.length > 65533 then
        (.error (.InvalidFormat "Comment too long") : Except Error (List Nat))
      else
        match writeWalk x (comsegOf s) x.length 2 false with
        | .error e => .error e
        | .ok suffix =>
          match validate_jpeg_decode v (0xFF :: 0xD8 :: suffix) with
          | .error e => .error e
          | .ok _ => .ok (0xFF :: 0xD8 :: suffix)) = .ok y := by
    rw [← h, write_comment, if_neg h1, validate_jpeg_decode, if_pos hvx]
    rfl
  by_cases hlong : s.length > 65533
  · rw [if_pos hlong] at h2
    exact Except.noConfusion h2
  rw [if_neg hlong] at h2
  rcases hww : writeWalk x (comsegOf s) x.length 2 false with e | W
  · rw [hww] at h2
    exact Except.noConfusion h2
  rw [hww] at h2
  have h3 : (match validate_jpeg_decode v (0xFF :: 0xD8 :: W) with
      | .error e => (.error e : Except Error (List Nat))
      | .ok _ => .ok (0xFF :: 0xD8 :: W)) = .ok y := h2
  by_cases hvy : v (0xFF :: 0xD8 :: W) = true
  · have hvok : validate_jpeg_decode v (0xFF :: 0xD8 :: W) = .ok () := by
      rw [validate_jpeg_decode, if_pos hvy]
    rw [hvok] at h3
    have h4 : (Except.ok (0xFF :: 0xD8 :: W) : Except Error (List Nat)) = .ok y := h3
    have hy : y = 0xFF :: 0xD8 :: W := by cases h4; rfl
    exact ⟨by omega, hy ▸ hvy, W, rfl, hy⟩
  · have hvbad : validate_jpeg_decode v (0xFF :: 0xD8 :: W) =
        .error (.InvalidFormat "Invalid JPEG") := by
      rw [validate_jpeg_decode, if_neg hvy]
    rw [hvbad] at h3
    exact Except.noConfusion h3

/-- First half of C3: reading back a freshly written comment. -/
theorem write_ok_read (v : List Nat → Bool) (x s y : List Nat)
    (h : write_comment v x s = .ok y) : read_comment v y = .ok (some s) := by
  obtain ⟨hs, hvy, W, hW, hy⟩ := write_comment_ok_elim v x s y h
  have hchar := writeWalk_char x (comsegOf s) x.length 2 false W hW
  rw [if_neg (show ¬(false = true) by simp)] at hchar
  obtain ⟨A, tail, hWT, hA, htail⟩ := hchar
  have hy2 : y = [0xFF, 0xD8] ++ joinSegs A ++ (comsegOf s ++ tail) := by
    rw [hy, hWT]; simp
  have hlseg : 2 * A.length ≤ (joinSegs A).length := joinSegs_length_ge A
  have hylen : y.length = 2 + (joinSegs A).length + (4 + s.length) + tail.length := by
    rw [hy2]
    simp [comsegOf]
    omega
  rw [read_comment]
  rw [if_neg (show ¬(y.length < 4 ∨ y.take 2 ≠ JPEG_SOI) by
    rw [not_or]
    refine ⟨by omega, ?_⟩
    rw [hy]
    simp [JPEG_SOI])]
  rw [validate_jpeg_decode, if_pos hvy]
  have hfuel : y.length = A.length + (y.length - A.length) := by omega
  rw [hfuel]
  have hskip := readCommentWalk_skip y A [0xFF, 0xD8] (comsegOf s ++ tail)
    (y.length - A.length) (by rw [hy2]) hA
  simp only [List.length_cons, List.length_nil] at hskip
  rw [hskip]
  have hk : y.length - A.length = (y.length - A.length - 1) + 1 := by omega
  rw [hk]
  have hat := readCommentWalk_at_com y ([0xFF, 0xD8] ++ joinSegs A) s tail
    (y.length - A.length - 1) hs (by rw [hy2]; simp [comsegOf])
  simp only [List.length_append, List.length_cons, List.length_nil] at hat
  rw [show 2 + (joinSegs A).length = 0 + 2 + (joinSegs A).length by omega]
  exact hat

/-- Second half of C3: after any successful `write_comment`, the stream
contains exactly one COM segment, holding the comment just written. -/
theorem comWalk_congr (y : List Nat) {f1 f2 a b : Nat} (hf : f1 = f2) (h : a = b) :
    comWalk y f1 a = comWalk y f2 b := by rw [hf, h]

theorem write_ok_comSegments (v : List Nat → Bool) (x s y : List Nat)
    (h : write_comment v x s = .ok y) : comSegments y = .ok [s] := by
  obtain ⟨hs, hvy, W, hW, hy⟩ := write_comment_ok_elim v x s y h
  have hchar := writeWalk_char x (comsegOf s) x.length 2 false W hW
  rw [if_neg (show ¬(false = true) by simp)] at hchar
  obtain ⟨A, tail, hWT, hA, htail⟩ := hchar
  obtain ⟨B, t, hTB, hB, htb⟩ := htail
  have hy2 : y = [0xFF, 0xD8] ++ joinSegs A ++ (comsegOf s ++ (joinSegs B ++ t)) := by
    rw [hy, hWT, hTB]; simp
  have hlA : 2 * A.length ≤ (joinSegs A).length := joinSegs_length_ge A
  have hlB : 2 * B.length ≤ (joinSegs B).length := joinSegs_length_ge B
  have hylen : y.length =
      2 + (joinSegs A).length + (4 + s.length) + (joinSegs B).length + t.length := by
    rw [hy2]
    simp [comsegOf]
    omega
  have hskip := comWalk_skip y A [0xFF, 0xD8] (comsegOf s ++ (joinSegs B ++ t))
    (y.length - A.length) (by rw [hy2]) hA
  have hat := comWalk_at_com y ([0xFF, 0xD8] ++ joinSegs A) s (joinSegs B ++ t)
    (y.length - A.length - 1) hs (by rw [hy2]; simp [comsegOf])
  have hskip2 := comWalk_skip y B ([0xFF, 0xD8] ++ joinSegs A ++ comsegOf s) t
    (y.length - A.length - 1 - B.length) (by rw [hy2]; simp [comsegOf]) hB
  rw [comSegments]
  have e0 : comWalk y y.length 2 =
      comWalk y (A.length + (y.length - A.length)) (([0xFF, 0xD8] : List Nat).length) :=
    comWalk_congr y (by omega) (by simp only [List.length_append, List.length_cons, List.length_nil]; try omega)
  rw [e0, hskip]
  have e1 : comWalk y (y.length - A.length)
        (([0xFF, 0xD8] : List Nat).length + (joinSegs A).length) =
      comWalk y ((y.length - A.length - 1) + 1)
        (([0xFF, 0xD8] ++ joinSegs A : List Nat).length) :=
    comWalk_congr y (by omega) (by simp only [List.length_append, List.length_cons, List.length_nil]; try omega)
  rw [e1, hat]
  have e2 : comWalk y (y.length - A.length - 1)
        (([0xFF, 0xD8] ++ joinSegs A : List Nat).length + 4 + s.length) =
      comWalk y (B.length + (y.length - A.length - 1 - B.length))
        (([0xFF, 0xD8] ++ joinSegs A ++ comsegOf s : List Nat).length) :=
    comWalk_congr y (by omega) (by simp only [comsegOf, List.length_append, List.length_cons, List.length_nil]; omega)
  rw [e2, hskip2]
  rcases htb with hnil | ⟨raw, hraw⟩
  · have hpos : y.length - 1 ≤
        ([0xFF, 0xD8] ++ joinSegs A ++ comsegOf s : List Nat).length + (joinSegs B).length := by
      rw [hnil] at hylen
      simp only [List.length_nil] at hylen
      simp only [comsegOf, List.length_append, List.length_cons, List.length_nil]
      omega
    have e3 : comWalk y (y.length - A.length - 1 - B.length)
          (([0xFF, 0xD8] ++ joinSegs A ++ comsegOf s : List Nat).length + (joinSegs B).length) =
        comWalk y ((y.length - A.length - 1 - B.length - 1) + 1)
          (([0xFF, 0xD8] ++ joinSegs A ++ comsegOf s : List Nat).length + (joinSegs B).length) :=
      comWalk_congr y (by omega) rfl
    rw [e3, comWalk_end y _ _ hpos]
    rfl
  · have hsos := comWalk_at_sos y ([0xFF, 0xD8] ++ joinSegs A ++ comsegOf s ++ joinSegs B) raw
      (y.length - A.length - 1 - B.length - 1)
      (by rw [hy2, hraw]; simp [comsegOf])
    have e3 : comWalk y (y.length - A.length - 1 - B.length)
          (([0xFF, 0xD8] ++ joinSegs A ++ comsegOf s : List Nat).length + (joinSegs B).length) =
        comWalk y ((y.length - A.length - 1 - B.length - 1) + 1)
          (([0xFF, 0xD8] ++ joinSegs A ++ comsegOf s ++ joinSegs B : List Nat).length) :=
      comWalk_congr y (by omega) (by simp only [List.length_append, List.length_cons, List.length_nil]; try omega)
    rw [e3, hsos]
    rfl

/-- C3: for every JPEG `x` accepted by `write_comment` and every comment
`s` (UTF-8 bytes, at most 65533 of them — enforced by `write_comment`
itself), `read_comment (write_comment x s) = Some s`; and writing a
second comment `s2` on the result leaves a stream containing exactly one
COM segment, whose payload is `s2`. -/
theorem write_read_comment_roundtrip (v : List Nat → Bool) (x s y : List Nat)
    (hw : write_comment v x s = .ok y) :
    read_comment v y = .ok (some s) ∧
    ∀ s2 y2, write_comment v y s2 = .ok y2 → comSegments y2 = .ok [s2] :=
  ⟨write_ok_read v x s y hw, fun s2 y2 hw2 => write_ok_comSegments v y s2 y2 hw2⟩

/-- Witness for `write_read_comment_roundtrip` on a concrete stream. -/
theorem write_read_comment_roundtrip_witness :
    read_comment vTrue [255, 216, 255, 254, 0, 3, 65, 255, 218, 0, 0] = .ok (some [65]) ∧
    comSegments [255, 216, 255, 254, 0, 3, 66, 255, 218, 0, 0] = .ok [[66]] := by
  have h := write_read_comment_roundtrip vTrue [255, 216, 255, 218, 0, 0] [65]
    [255, 216, 255, 254, 0, 3, 65, 255, 218, 0, 0] (by decide)
  exact ⟨h.1, h.2 [66] [255, 216, 255, 254, 0, 3, 66, 255, 218, 0, 0] (by decide)⟩

/-! ## Characterization and preservation for `clean_metadata`'s walk -/

/-- A serialized segment that `clean_metadata`'s walk keeps (and keeps
again on a second pass). -/
def keptSeg : JSeg → Prop
  | .sized m b0 b1 payload =>
      256 * b0 + b1 = payload.length + 2 ∧ keepB m payload = true
  | .rst m => 0xD0 ≤ m ∧ m ≤ 0xD9

theorem keepB_facts (m : Nat) (payload : List Nat) (h : keepB m payload = true) :
    m ≠ 0xDA ∧ ¬(0xD0 ≤ m ∧ m ≤ 0xD9) ∧ m ≠ 0xE1 ∧ m ≠ 0xFE := by
  rw [keepB] at h
  by_cases h1 : (0xC0 ≤ m ∧ m ≤ 0xC3) ∨ (0xC5 ≤ m ∧ m ≤ 0xCF)
  · exact ⟨by omega, by omega, by omega, by omega⟩
  · rw [if_neg h1] at h
    by_cases h2 : m = 0xC4
    · exact ⟨by omega, by omega, by omega, by omega⟩
    · rw [if_neg h2] at h
      by_cases h3 : m = 0xDB
      · exact ⟨by omega, by omega, by omega, by omega⟩
      · rw [if_neg h3] at h
        by_cases h4 : m = 0xDD
        · exact ⟨by omega, by omega, by omega, by omega⟩
        · rw [if_neg h4] at h
          by_cases h5 : m = 0xE0
          · exact ⟨by omega, by omega, by omega, by omega⟩
          · rw [if_neg h5] at h
            by_cases h6 : m = 0xE1
            · rw [if_pos h6] at h
              exact Bool.noConfusion h
            · rw [if_neg h6] at h
              by_cases h7 : m = 0xE2
              · exact ⟨by omega, by omega, by omega, by omega⟩
              · rw [if_neg h7] at h
                exact Bool.noConfusion h

theorem keptSeg_wf (s : JSeg) (h : keptSeg s) : segWF s := by
  cases s with
  | rst m => exact h
  | sized m b0 b1 payload =>
    obtain ⟨hsz, hk⟩ := h
    obtain ⟨h1, h2, _, _⟩ := keepB_facts m payload hk
    exact ⟨h1, h2, hsz⟩

/-- Characterization of `clean_metadata`'s walk: on success, the rebuilt
suffix is a run of kept segments, optionally followed by the SOS marker
and the verbatim remainder. -/
theorem cleanWalk_char (data : List Nat) :
    ∀ (fuel pos : Nat) (he : Bool) (orAcc : Option Nat) (suf : List Nat) (orient : Option Nat),
      cleanWalk data fuel pos he orAcc = .ok (suf, orient) →
      ∃ items tail, suf = joinSegs items ++ tail ∧ (∀ s ∈ items, keptSeg s) ∧
        (tail = [] ∨ ∃ raw, tail = 0xFF :: 0xDA :: raw) := by
  intro fuel
  induction fuel with
  | zero => intro pos he orAcc suf orient h; exact Except.noConfusion h
  | succ fuel ih =>
    intro pos he orAcc suf orient h
    rw [cleanWalk] at h
    by_cases hg : pos < data.length - 1
    · rw [if_pos hg] at h
      by_cases hFF : byteAt data pos ≠ 0xFF
      · rw [if_pos hFF] at h
        exact Except.noConfusion h
      · rw [if_neg hFF] at h
        by_cases hDA : byteAt data (pos + 1) = 0xDA
        · rw [if_pos hDA] at h
          have hsuf : suf = 0xFF :: byteAt data (pos + 1) :: data.drop (pos + 2) := by
            cases h; rfl
          exact ⟨[], 0xFF :: 0xDA :: data.drop (pos + 2), by simp [hsuf, hDA], by simp,
            Or.inr ⟨_, rfl⟩⟩
        · rw [if_neg hDA] at h
          by_cases hstand : 0xD0 ≤ byteAt data (pos + 1) ∧ byteAt data (pos + 1) ≤ 0xD9
          · rw [if_pos hstand] at h
            obtain ⟨r, hr, hWr⟩ := except_map_ok _ _ _ h
            obtain ⟨items, tail, hT, hI, ht⟩ := ih (pos + 2) he orAcc r.1 r.2 (by
              rw [hr])
            have hsuf : suf = segBytes (.rst (byteAt data (pos + 1))) ++ r.1 := by
              have := congrArg Prod.fst hWr
              simpa [segBytes] using this
            refine ⟨.rst (byteAt data (pos + 1)) :: items, tail,
              by simp [hsuf, hT, joinSegs_cons], ?_, ht⟩
            intro a ha
            rcases List.mem_cons.mp ha with h' | h'
            · subst h'; exact hstand
            · exact hI a h'
          · rw [if_neg hstand] at h
            by_cases hb : pos + 2 + 2 > data.length
            · rw [if_pos hb] at h
              exact Except.noConfusion h
            · rw [if_neg hb] at h
              by_cases hsz : be16at data (pos + 2) < 2
              · rw [if_pos hsz] at h
                exact Except.noConfusion h
              · rw [if_neg hsz] at h
                by_cases hov : pos + 2 + be16at data (pos + 2) > data.length
                · rw [if_pos hov] at h
                  exact Except.noConfusion h
                · rw [if_neg hov] at h
                  obtain ⟨r, hr, hWr⟩ := except_map_ok _ _ _ h
                  obtain ⟨items, tail, hT, hI, ht⟩ := ih _ _ _ r.1 r.2 (by rw [hr])
                  obtain ⟨b0, b1, payload, hsl, hb0, hb1, hpl, hwfp, hszp⟩ :=
                    slice_as_segBytes data (pos + 2) (be16at data (pos + 2))
                      (by omega) (by omega) rfl
                  by_cases hkeep : keepB (byteAt data (pos + 1))
                      (slice data (pos + 2 + 2) (pos + 2 + be16at data (pos + 2))) = true
                  · have hsuf : suf = segBytes (.sized (byteAt data (pos + 1)) b0 b1 payload)
                        ++ r.1 := by
                      show suf = (0xFF :: byteAt data (pos + 1) :: (b0 :: b1 :: payload)) ++ r.1
                      rw [← hsl]
                      have h2 := congrArg Prod.fst hWr
                      simpa [hkeep] using h2
                    refine ⟨.sized (byteAt data (pos + 1)) b0 b1 payload :: items, tail,
                      by simp [hsuf, hT, joinSegs_cons], ?_, ht⟩
                    intro a ha
                    rcases List.mem_cons.mp ha with h' | h'
                    · subst h'
                      refine ⟨hwfp, ?_⟩
                      rw [hpl]
                      rw [show pos + 2 + 2 = pos + 2 + 2 from rfl] at hkeep
                      exact hkeep
                    · exact hI a h'
                  · have hsuf : suf = r.1 := by
                      have := congrArg Prod.fst hWr
                      simpa [hkeep] using this
                    exact ⟨items, tail, by rw [hsuf, hT], hI, ht⟩
    · rw [if_neg hg] at h
      have hsuf : suf = [] := by cases h; rfl
      exact ⟨[], [], by simp [hsuf], by simp, Or.inl rfl⟩

/-- Preservation: a second `clean_metadata` walk over a run of kept
segments keeps every one of them verbatim and captures no orientation. -/
theorem cleanWalk_keep (y : List Nat) (items : List JSeg) :
    ∀ (p t : List Nat) (f : Nat),
      y = p ++ joinSegs items ++ t →
      (∀ s ∈ items, keptSeg s) →
      (t = [] ∨ ∃ raw, t = 0xFF :: 0xDA :: raw) →
      cleanWalk y (items.length + 1 + f) p.length false none =
        .ok (joinSegs items ++ t, none) := by
  induction items with
  | nil =>
    intro p t f hy ha ht
    have h1 : ([] : List JSeg).length + 1 + f = f + 1 := by simp [Nat.add_comm]
    rw [h1]
    rcases ht with hnil | ⟨raw, hraw⟩
    · subst hnil
      have hpos : p.length = y.length := by rw [hy]; simp
      rw [cleanWalk]
      rw [if_neg (by omega)]
      simp
    · subst hraw
      have hy' : y = p ++ (0xFF :: 0xDA :: raw) := by rw [hy]; simp
      have hlen : y.length = p.length + 2 + raw.length := by rw [hy']; simp; omega
      have hFF : byteAt y p.length = 0xFF := by
        rw [hy']
        have := byteAt_append p (0xFF :: 0xDA :: raw) 0
        simpa using this
      have hm : byteAt y (p.length + 1) = 0xDA := by
        rw [hy']
        have := byteAt_append p (0xFF :: 0xDA :: raw) 1
        simpa [byteAt] using this
      have hdrop : y.drop (p.length + 2) = raw := by
        rw [hy']
        have h2 := drop_append_len p (0xFF :: 0xDA :: raw) 2
        rw [h2]
        rfl
      rw [cleanWalk]
      rw [if_pos (by omega), if_neg (by rw [hFF]; simp), hm, if_pos rfl, hdrop]
      simp
  | cons s l ih =>
    intro p t f hy ha ht
    have hy' : y = p ++ segBytes s ++ (joinSegs l ++ t) := by
      rw [hy, joinSegs_cons]; simp
    have hks := ha s (by simp)
    have hfuel : (s :: l).length + 1 + f = (l.length + 1 + f) + 1 := by
      simp [Nat.add_right_comm]
    rw [hfuel]
    have hrest := ih (p ++ segBytes s) t f (by rw [hy']; simp)
      (fun a haa => ha a (by simp [haa])) ht
    simp only [List.length_append] at hrest
    cases s with
    | rst m =>
      obtain ⟨hg, hFF, hm, hpos⟩ := rst_step_facts y p (joinSegs l ++ t) m hy'
      have hm1 : m ≠ 0xDA := by rcases hks with ⟨_, _⟩; omega
      have hrest' : cleanWalk y (l.length + 1 + f) (p.length + 2) false none =
          .ok (joinSegs l ++ t, none) := by
        rw [hpos]; exact hrest
      rw [cleanWalk]
      rw [if_pos hg, if_neg (by rw [hFF]; simp), hm, if_neg (by simp [hm1]),
        if_pos (show 0xD0 ≤ m ∧ m ≤ 0xD9 from hks)]
      rw [hrest']
      rw [joinSegs_cons]
      simp [segBytes, Except.map]
    | sized m b0 b1 payload =>
      obtain ⟨hsz, hkeep⟩ := hks
      obtain ⟨hm1, hm2, hm3, hm4⟩ := keepB_facts m payload hkeep
      obtain ⟨hg, hFF, hm, hb2, hbe, hpos, hend, hslice⟩ :=
        sized_step_facts y p (joinSegs l ++ t) m b0 b1 payload hy' hsz
      have hpayload : slice y (p.length + 2 + 2) (p.length + 2 + (payload.length + 2)) =
          payload := by
        have h4 : y = (p ++ [0xFF, m, b0, b1]) ++ payload ++ (joinSegs l ++ t) := by
          rw [hy']; simp [segBytes]
        have := slice_append_exact (p ++ [0xFF, m, b0, b1]) payload (joinSegs l ++ t)
        rw [← h4] at this
        simp only [List.length_append, List.length_cons, List.length_nil] at this
        rw [show p.length + 2 + 2 = p.length + 4 by omega,
          show p.length + 2 + (payload.length + 2) = p.length + 4 + payload.length by omega]
        simpa using this
      have hrest' : cleanWalk y (l.length + 1 + f) (p.length + 2 + (payload.length + 2))
          false none = .ok (joinSegs l ++ t, none) := by
        rw [hpos]; exact hrest
      rw [cleanWalk]
      rw [if_pos hg, if_neg (by rw [hFF]; simp), hm, if_neg (by simp [hm1]),
        if_neg (by simpa using hm2), if_neg (by omega), hbe, if_neg (by omega),
        if_neg (by omega)]
      rw [if_neg (show ¬(m = 0xE1 ∧ ¬false = true ∧ payload.length + 2 > 8 ∧
          slice y (p.length + 2 + 2) (p.length + 2 + 6) = [0x45, 0x78, 0x69, 0x66]) from
        fun hc => hm3 hc.1)]
      rw [joinSegs_cons]
      simp only [hpayload, hkeep, hslice, if_pos]
      rw [hrest']
      simp [segBytes, Except.map]

theorem cleanWalk_congr (y : List Nat) {f1 f2 a b : Nat} (he : Bool) (orA : Option Nat)
    (hf : f1 = f2) (h : a = b) : cleanWalk y f1 a he orA = cleanWalk y f2 b he orA := by
  rw [hf, h]

/-- Master elimination for a successful `clean_metadata`: the walk
succeeded, and either an in-range orientation was captured (the splice
path) or the result is the re-validated rebuilt buffer. -/
theorem clean_metadata_ok_cases (v : List Nat → Bool) (data out : List Nat)
    (h : clean_metadata v data = .ok out) :
    ∃ W orient, cleanOutput data = .ok (W, orient) ∧
      ((∃ o, orient = some o ∧ 1 ≤ o ∧ o ≤ 8) ∨ (out = W ∧ v W = true)) := by
  by_cases h1 : data.length < 4 ∨ data.take 2 ≠ JPEG_SOI
  · rw [clean_metadata, if_pos h1] at h
    exact Except.noConfusion h
  by_cases hvx : v data = true
  case neg =>
    rw [clean_metadata, if_neg h1, validate_jpeg_decode, if_neg hvx] at h
    exact Except.noConfusion h
  have h2 : (match cleanOutput data with
      | .error e => (.error e : Except Error (List Nat))
      | .ok (output, orient) =>
        match orient with
        | some o =>
          if 1 ≤ o ∧ o ≤ 8 then
            let exifData := create_minimal_exif o
            let r := spliceLoop output exifData (output.length + 1) 0 false
            if r.2 then .ok r.1
            else .ok ([0xFF, 0xD8] ++ exifData ++ output.drop 2)
          else
            match validate_jpeg_decode v output with
            | .error e => .error e
            | .ok _ => .ok output
        | none =>
          match validate_jpeg_decode v output with
          | .error e => .error e
          | .ok _ => .ok output) = .ok out := by
    rw [← h, clean_metadata, if_neg h1, validate_jpeg_decode, if_pos hvx]
  rcases hco : cleanOutput data with e | Wo
  · rw [hco] at h2
    exact Except.noConfusion h2
  · rcases Wo with ⟨W, orient⟩
    rw [hco] at h2
    refine ⟨W, orient, rfl, ?_⟩
    rcases orient with _ | o
    · have h3 : (match validate_jpeg_decode v W with
          | .error e => (.error e : Except Error (List Nat))
          | .ok _ => .ok W) = .ok out := h2
      by_cases hvW : v W = true
      · have h5 : validate_jpeg_decode v W = .ok () := by
          rw [validate_jpeg_decode, if_pos hvW]
        rw [h5] at h3
        have h6 : (Except.ok W : Except Error (List Nat)) = .ok out := h3
        have : out = W := by cases h6; rfl
        exact Or.inr ⟨this, hvW⟩
      · have h5 : validate_jpeg_decode v W = .error (.InvalidFormat "Invalid JPEG") := by
          rw [validate_jpeg_decode, if_neg hvW]
        rw [h5] at h3
        exact Except.noConfusion h3
    · by_cases hio : 1 ≤ o ∧ o ≤ 8
      · exact Or.inl ⟨o, rfl, hio⟩
      · have h3 : (if 1 ≤ o ∧ o ≤ 8 then
            let exifData := create_minimal_exif o
            let r := spliceLoop W exifData (W.length + 1) 0 false
            if r.2 then (.ok r.1 : Except Error (List Nat))
            else .ok ([0xFF, 0xD8] ++ exifData ++ W.drop 2)
          else
            match validate_jpeg_decode v W with
            | .error e => .error e
            | .ok _ => .ok W) = .ok out := h2
        rw [if_neg hio] at h3
        by_cases hvW : v W = true
        · have h5 : validate_jpeg_decode v W = .ok () := by
            rw [validate_jpeg_decode, if_pos hvW]
          rw [h5] at h3
          have h6 : (Except.ok W : Except Error (List Nat)) = .ok out := h3
          have : out = W := by cases h6; rfl
          exact Or.inr ⟨this, hvW⟩
        · have h5 : validate_jpeg_decode v W = .error (.InvalidFormat "Invalid JPEG") := by
            rw [validate_jpeg_decode, if_neg hvW]
          rw [h5] at h3
          exact Except.noConfusion h3

/-- C2 amended: whenever `clean_metadata` returns `Ok(out)`, EITHER the
run captured an orientation value in `[1,8]` (the splice path, which
returns without re-validation), OR the returned buffer was re-validated
by the external decoder.  The original claim — that re-validation covers
the splice path too — is refuted by `c2_counterexample`. -/
theorem clean_metadata_validation (v : List Nat → Bool) (data out : List Nat)
    (h : clean_metadata v data = .ok out) :
    (∃ W o, cleanOutput data = .ok (W, some o) ∧ 1 ≤ o ∧ o ≤ 8) ∨ v out = true := by
  obtain ⟨W, orient, hco, hcase⟩ := clean_metadata_ok_cases v data out h
  rcases hcase with ⟨o, horient, hio⟩ | ⟨hout, hvW⟩
  · exact Or.inl ⟨W, o, by rw [hco, horient], hio.1, hio.2⟩
  · exact Or.inr (by rw [hout]; exact hvW)

/-- Witness for `clean_metadata_validation` on a stream with no EXIF. -/
theorem clean_metadata_validation_witness :
    (∃ W o, cleanOutput [0xFF, 0xD8, 0xFF, 0xDA, 0x00, 0x00] = .ok (W, some o) ∧
      1 ≤ o ∧ o ≤ 8) ∨ vTrue [0xFF, 0xD8, 0xFF, 0xDA, 0x00, 0x00] = true :=
  clean_metadata_validation vTrue [0xFF, 0xD8, 0xFF, 0xDA, 0x00, 0x00]
    [0xFF, 0xD8, 0xFF, 0xDA, 0x00, 0x00] (by decide)

/-- The synthesized minimal TIFF payload round-trips through the
best-effort EXIF parser for every 16-bit value, in range or not. -/
theorem extract_minimal_tiff (o : Nat) (ho : o ≤ 65535) :
    extract_orientation_from_exif ((create_minimal_exif o).drop 10) = some o := by
  have hdrop : (create_minimal_exif o).drop 10 =
      [0x49, 0x49, 0x2A, 0x00, 0x08, 0x00, 0x00, 0x00,
       0x01, 0x00, 0x12, 0x01, 0x03, 0x00, 0x01, 0x00, 0x00, 0x00,
       o % 256, o / 256 % 256, 0x00, 0x00, 0x00, 0x00, 0x00, 0x00] := rfl
  rw [hdrop]
  show some (o % 256 + 256 * (o / 256 % 256)) = some o
  congr 1
  omega

/-- Structure of the rebuilt buffer: on a successful walk, `cleanOutput`
yields SOI followed by a run of kept segments and an optional SOS tail. -/
theorem cleanOutput_structure (data W : List Nat) (orient : Option Nat)
    (h : cleanOutput data = .ok (W, orient)) :
    ∃ items tail, W = 0xFF :: 0xD8 :: (joinSegs items ++ tail) ∧
      (∀ s ∈ items, keptSeg s) ∧
      (tail = [] ∨ ∃ raw, tail = 0xFF :: 0xDA :: raw) := by
  rw [cleanOutput] at h
  obtain ⟨r, hr, hpair⟩ := except_map_ok _ _ _ h
  obtain ⟨items, tail, hsuf, hitems, htail⟩ :=
    cleanWalk_char data data.length 2 false none r.1 r.2 (by rw [hr])
  have hWf : W = 0xFF :: 0xD8 :: r.1 := congrArg Prod.fst hpair
  exact ⟨items, tail, by rw [hWf, hsuf], hitems, htail⟩

/-- C10: when the walk captures an orientation value outside `[1,8]`
(`extract_orientation_from_exif` returns raw values verbatim — see the
last conjunct, for every 16-bit value), `clean_metadata` discards it: the
returned buffer is the rebuilt stream, whose segments are all kept
segments (none of which is an APP1), and the buffer did go through the
final re-validation. -/
theorem clean_metadata_out_of_range_orientation (v : List Nat → Bool)
    (data out W : List Nat) (o : Nat)
    (h : clean_metadata v data = .ok out)
    (hW : cleanOutput data = .ok (W, some o))
    (ho : ¬(1 ≤ o ∧ o ≤ 8)) :
    out = W ∧ v W = true ∧
    (∃ items tail, W = 0xFF :: 0xD8 :: (joinSegs items ++ tail) ∧
      (∀ s ∈ items, keptSeg s) ∧ (∀ s ∈ items, segMarker s ≠ 0xE1) ∧
      (tail = [] ∨ ∃ raw, tail = 0xFF :: 0xDA :: raw)) ∧
    (∀ o2, o2 ≤ 65535 →
      extract_orientation_from_exif ((create_minimal_exif o2).drop 10) = some o2) := by
  obtain ⟨W', orient', hco, hcase⟩ := clean_metadata_ok_cases v data out h
  have heq : W' = W ∧ orient' = some o := by
    have h3 := hco.symm.trans hW
    have h4 : (W', orient') = (W, some o) := by
      cases h3
      rfl
    exact ⟨congrArg Prod.fst h4, congrArg Prod.snd h4⟩
  obtain ⟨hW', horient'⟩ := heq
  rcases hcase with ⟨o2, ho2, hio⟩ | ⟨hout, hvW⟩
  · rw [horient'] at ho2
    have : o2 = o := by cases ho2; rfl
    subst this
    exact absurd hio ho
  · obtain ⟨items, tail, hWstruct, hitems, htail⟩ := cleanOutput_structure data W (some o) hW
    refine ⟨by rw [hout, hW'], by rw [← hW']; exact hvW,
      ⟨items, tail, hWstruct, hitems, ?_, htail⟩, fun o2 ho2 => extract_minimal_tiff o2 ho2⟩
    intro s hs
    have hk := hitems s hs
    cases s with
    | rst m =>
      show m ≠ 0xE1
      rcases hk with ⟨_, _⟩
      omega
    | sized m b0 b1 payload =>
      show m ≠ 0xE1
      exact (keepB_facts m payload hk.2).2.2.1

/-- Witness for `clean_metadata_out_of_range_orientation`: a stream whose
EXIF orientation is 9. -/
theorem clean_metadata_out_of_range_orientation_witness :
    clean_metadata vTrue ([0xFF, 0xD8] ++ create_minimal_exif 9 ++ [0xFF, 0xDA, 0x00, 0x00]) =
      .ok [0xFF, 0xD8, 0xFF, 0xDA, 0x00, 0x00] ∧
    ([0xFF, 0xD8, 0xFF, 0xDA, 0x00, 0x00] = [0xFF, 0xD8, 0xFF, 0xDA, 0x00, 0x00] ∧
      vTrue [0xFF, 0xD8, 0xFF, 0xDA, 0x00, 0x00] = true ∧
      (∃ items tail,
        [0xFF, 0xD8, 0xFF, 0xDA, 0x00, 0x00] = 0xFF :: 0xD8 :: (joinSegs items ++ tail) ∧
        (∀ s ∈ items, keptSeg s) ∧ (∀ s ∈ items, segMarker s ≠ 0xE1) ∧
        (tail = [] ∨ ∃ raw, tail = 0xFF :: 0xDA :: raw)) ∧
      (∀ o2, o2 ≤ 65535 →
        extract_orientation_from_exif ((create_minimal_exif o2).drop 10) = some o2)) :=
  ⟨by decide,
   clean_metadata_out_of_range_orientation vTrue
     ([0xFF, 0xD8] ++ create_minimal_exif 9 ++ [0xFF, 0xDA, 0x00, 0x00])
     [0xFF, 0xD8, 0xFF, 0xDA, 0x00, 0x00] [0xFF, 0xD8, 0xFF, 0xDA, 0x00, 0x00] 9
     (by decide) (by decide) (by decide)⟩

/-- JPEG half of the amended C7: `clean_metadata` is idempotent on every
run that does not splice an orientation segment (captured orientation
absent or out of range), provided the cleaned buffer still has the
minimum 4 bytes the entry check requires. -/
theorem clean_metadata_idem_noSplice (v : List Nat → Bool) (data out W : List Nat)
    (orient : Option Nat)
    (h : clean_metadata v data = .ok out)
    (hW : cleanOutput data = .ok (W, orient))
    (ho : ∀ o, orient = some o → ¬(1 ≤ o ∧ o ≤ 8))
    (hlen : 4 ≤ out.length) :
    clean_metadata v out = .ok out := by
  obtain ⟨W', orient', hco, hcase⟩ := clean_metadata_ok_cases v data out h
  have heq : W' = W ∧ orient' = orient := by
    have h3 := hco.symm.trans hW
    have h4 : (W', orient') = (W, orient) := by cases h3; rfl
    exact ⟨congrArg Prod.fst h4, congrArg Prod.snd h4⟩
  obtain ⟨hW', horient'⟩ := heq
  rcases hcase with ⟨o, ho2, hio⟩ | ⟨hout, hvW⟩
  · exact absurd hio (ho o (by rw [← horient', ho2]))
  · rw [hW'] at hout hvW
    have hlenW : 4 ≤ W.length := by rw [← hout]; exact hlen
    rw [hout]
    rw [cleanOutput] at hW
    obtain ⟨r, hr, hpair⟩ := except_map_ok _ _ _ hW
    obtain ⟨items, tail, hsuf, hitems, htail⟩ :=
      cleanWalk_char data data.length 2 false none r.1 r.2 (by rw [hr])
    have hWf : W = 0xFF :: 0xD8 :: r.1 := congrArg Prod.fst hpair
    have hWform : W = [0xFF, 0xD8] ++ joinSegs items ++ tail := by
      rw [hWf, hsuf]; simp
    have hlseg : 2 * items.length ≤ (joinSegs items).length := joinSegs_length_ge items
    have hWlen : W.length = 2 + (joinSegs items).length + tail.length := by
      rw [hWform]; simp; omega
    have hkeepw := cleanWalk_keep W items [0xFF, 0xD8] tail
      (W.length - items.length - 1) hWform hitems htail
    have hco2 : cleanOutput W = .ok (W, none) := by
      rw [cleanOutput]
      have e1 : cleanWalk W W.length 2 false none =
          cleanWalk W (items.length + 1 + (W.length - items.length - 1))
            (([0xFF, 0xD8] : List Nat).length) false none :=
        cleanWalk_congr W false none (by omega) (by simp)
      rw [e1, hkeepw]
      have : 0xFF :: 0xD8 :: (joinSegs items ++ tail) = W := by
        rw [hWform]; simp
      simp only [Except.map]
      rw [this]
    rw [clean_metadata]
    rw [if_neg (show ¬(W.length < 4 ∨ W.take 2 ≠ JPEG_SOI) by
      rw [not_or]
      refine ⟨by omega, ?_⟩
      rw [hWf]
      simp [JPEG_SOI])]
    rw [validate_jpeg_decode, if_pos hvW, hco2]
    have h5 : validate_jpeg_decode v W = .ok () := by
      rw [validate_jpeg_decode, if_pos hvW]
    show (match validate_jpeg_decode v W with
      | .error e => (.error e : Except Error (List Nat))
      | .ok _ => .ok W) = .ok W
    rw [h5]

/-! ## Characterization of the EXIF insertion scan (C1 amended) -/

/-- Specification-side observer of jpeg.rs:119-132's scan: the first
index `i` (with `i < output.len() - 1`) at which the byte pair `FF E0`
occurs. -/
def ffE0Scan (output : List Nat) : Nat → Nat → Option Nat
  | 0, _ => none
  | fuel + 1, i =>
    if i < output.length - 1 then
      if byteAt output i = 0xFF ∧ byteAt output (i + 1) = 0xE0 then some i
      else ffE0Scan output fuel (i + 1)
    else none

/-- Where jpeg.rs:119-135 inserts the synthesized EXIF segment into the
rebuilt buffer: right after the two bytes following the first `FF E0`
pair read as a big-endian segment length — or right after SOI when no
such pair occurs.  Built on the same clamped reads as `spliceLoop`, so it
describes the program only where those reads are in range (the
`scanSafe` hypothesis of `clean_metadata_splice_point`). -/
def splicePoint (output : List Nat) : Nat :=
  match ffE0Scan output (output.length + 1) 0 with
  | some i => i + 2 + be16at output (i + 2)
  | none => 2

/-- The region where none of the Rust insertion loop's reads is out of
bounds: if the scan over `output` fires at index `j`, then the two size
bytes `output[j+2]`, `output[j+3]` (jpeg.rs:122) exist, and the computed
segment end `j + 2 + be16(output, j+2)` stays within the buffer, so the
slice `&output[j..marker_end]` (jpeg.rs:127) is in range.  Off this
region the Rust code panics at one of those two sites and returns
nothing; when the scan finds no `FF E0` pair there is no panic site. -/
def scanSafe (output : List Nat) : Prop :=
  ∀ j, ffE0Scan output (output.length + 1) 0 = some j →
    j + 4 ≤ output.length ∧ j + 2 + be16at output (j + 2) ≤ output.length

/-- After insertion, the splice loop copies the rest of the buffer
byte-for-byte. -/
theorem spliceLoop_inserted (output exif : List Nat) :
    ∀ (fuel i : Nat), output.length + 1 - i ≤ fuel →
      spliceLoop output exif fuel i true = (output.drop i, true) := by
  intro fuel
  induction fuel with
  | zero =>
    intro i hf
    have : output.length ≤ i := by omega
    rw [spliceLoop, List.drop_eq_nil_of_le this]
  | succ fuel ih =>
    intro i hf
    rw [spliceLoop]
    by_cases hg : i < output.length - 1
    · rw [if_pos hg, if_neg (by simp)]
      rw [ih (i + 1) (by omega)]
      rw [drop_eq_byteAt_cons output i (by omega)]
    · rw [if_neg hg]
      by_cases hi : i < output.length
      · rw [if_pos hi]
        rw [drop_eq_byteAt_cons output i hi, List.drop_eq_nil_of_le (by omega)]
      · rw [if_neg hi, List.drop_eq_nil_of_le (by omega)]

/-- The scan never reports an index before its starting point. -/
theorem ffE0Scan_ge (output : List Nat) :
    ∀ (fuel i j : Nat), ffE0Scan output fuel i = some j → i ≤ j := by
  intro fuel
  induction fuel with
  | zero => intro i j h; exact Option.noConfusion h
  | succ fuel ih =>
    intro i j h
    rw [ffE0Scan] at h
    by_cases hg : i < output.length - 1
    · rw [if_pos hg] at h
      by_cases hm : byteAt output i = 0xFF ∧ byteAt output (i + 1) = 0xE0
      · rw [if_pos hm] at h
        cases h
        omega
      · rw [if_neg hm] at h
        have := ih (i + 1) j h
        omega
    · rw [if_neg hg] at h
      exact Option.noConfusion h

/-- The splice loop, not yet inserted, behaves according to the first
`FF E0` occurrence. -/
theorem spliceLoop_scan (output exif : List Nat) :
    ∀ (fuel i : Nat), output.length + 1 - i ≤ fuel →
      spliceLoop output exif fuel i false =
        match ffE0Scan output fuel i with
        | none => (output.drop i, false)
        | some j =>
          (slice output i (j + 2 + be16at output (j + 2)) ++ exif ++
            output.drop (j + 2 + be16at output (j + 2)), true) := by
  intro fuel
  induction fuel with
  | zero =>
    intro i hf
    have : output.length ≤ i := by omega
    rw [spliceLoop, ffE0Scan, List.drop_eq_nil_of_le this]
  | succ fuel ih =>
    intro i hf
    rw [spliceLoop, ffE0Scan]
    by_cases hg : i < output.length - 1
    · rw [if_pos hg, if_pos hg]
      by_cases hmatch : byteAt output i = 0xFF ∧ byteAt output (i + 1) = 0xE0
      · rw [if_pos (show byteAt output i = 0xFF ∧ byteAt output (i + 1) = 0xE0 ∧
            ¬false = true from ⟨hmatch.1, hmatch.2, by simp⟩), if_pos hmatch]
        dsimp only
        rw [spliceLoop_inserted output exif fuel (i + 2 + be16at output (i + 2)) (by omega)]
      · rw [if_neg (show ¬(byteAt output i = 0xFF ∧ byteAt output (i + 1) = 0xE0 ∧
            ¬false = true) from fun hc => hmatch ⟨hc.1, hc.2.1⟩), if_neg hmatch]
        dsimp only
        rw [ih (i + 1) (by omega)]
        rcases hscan : ffE0Scan output fuel (i + 1) with _ | j
        · dsimp only
          rw [drop_eq_byteAt_cons output i (by omega)]
        · have hij : i + 1 ≤ j := ffE0Scan_ge output fuel (i + 1) j hscan
          dsimp only
          rw [slice_eq_byteAt_cons output i (j + 2 + be16at output (j + 2))
            (by omega) (by omega)]
          simp
    · rw [if_neg hg, if_neg hg]
      by_cases hi : i < output.length
      · rw [if_pos hi]
        rw [drop_eq_byteAt_cons output i hi, List.drop_eq_nil_of_le (by omega)]
      · rw [if_neg hi, List.drop_eq_nil_of_le (by omega)]

/-- C1 amended: when an orientation value in `[1,8]` was captured, the
returned buffer is the rebuilt stream split at exactly one point, with
the synthesized EXIF APP1 segment inserted there and every other byte
preserved in order; the split point is `splicePoint`: right after the
first occurrence of the byte pair `FF E0` anywhere in the rebuilt buffer
(its two following bytes read as a big-endian length), or right after SOI
when no such pair occurs.  This coincides with "immediately after the
JFIF APP0 segment, else immediately after SOI" exactly when the first
`FF E0` pair is a kept APP0 segment header, but not in general (the scan
also matches `FF E0` inside payload or entropy-coded data —
`c1_counterexample`).  `hsafe` restricts the statement to exactly the
inputs on which no read of the Rust insertion loop is out of bounds —
neither the size bytes `output[i+2]`, `output[i+3]` of jpeg.rs:122 nor
the slice `&output[i..marker_end]` of jpeg.rs:127, both of which this
model clamps; off that region the program panics and returns nothing,
and this theorem says nothing about it. -/
theorem clean_metadata_splice_point (v : List Nat → Bool) (data out W : List Nat) (o : Nat)
    (h : clean_metadata v data = .ok out)
    (hW : cleanOutput data = .ok (W, some o))
    (ho : 1 ≤ o ∧ o ≤ 8)
    (hsafe : scanSafe W) :
    out = W.take (splicePoint W) ++ create_minimal_exif o ++ W.drop (splicePoint W) := by
  by_cases h1 : data.length < 4 ∨ data.take 2 ≠ JPEG_SOI
  · rw [clean_metadata, if_pos h1] at h
    exact Except.noConfusion h
  by_cases hvx : v data = true
  case neg =>
    rw [clean_metadata, if_neg h1, validate_jpeg_decode, if_neg hvx] at h
    exact Except.noConfusion h
  have h2 : (match cleanOutput data with
      | .error e => (.error e : Except Error (List Nat))
      | .ok (output, orient) =>
        match orient with
        | some o =>
          if 1 ≤ o ∧ o ≤ 8 then
            let exifData := create_minimal_exif o
            let r := spliceLoop output exifData (output.length + 1) 0 false
            if r.2 then .ok r.1
            else .ok ([0xFF, 0xD8] ++ exifData ++ output.drop 2)
          else
            match validate_jpeg_decode v output with
            | .error e => .error e
            | .ok _ => .ok output
        | none =>
          match validate_jpeg_decode v output with
          | .error e => .error e
          | .ok _ => .ok output) = .ok out := by
    rw [← h, clean_metadata, if_neg h1, validate_jpeg_decode, if_pos hvx]
  rw [hW] at h2
  have h3 : (if 1 ≤ o ∧ o ≤ 8 then
      let exifData := create_minimal_exif o
      let r := spliceLoop W exifData (W.length + 1) 0 false
      if r.2 then (.ok r.1 : Except Error (List Nat))
      else .ok ([0xFF, 0xD8] ++ exifData ++ W.drop 2)
    else
      match validate_jpeg_decode v W with
      | .error e => .error e
      | .ok _ => .ok W) = .ok out := h2
  rw [if_pos ho] at h3
  dsimp only at h3
  have halign := spliceLoop_scan W (create_minimal_exif o) (W.length + 1) 0 (by omega)
  have hWf : ∃ suf, W = 0xFF :: 0xD8 :: suf := by
    rw [cleanOutput] at hW
    obtain ⟨r, hr, hpair⟩ := except_map_ok _ _ _ hW
    exact ⟨r.1, congrArg Prod.fst hpair⟩
  obtain ⟨suf, hWsuf⟩ := hWf
  rcases hscan : ffE0Scan W (W.length + 1) 0 with _ | j
  · rw [hscan] at halign
    dsimp only at halign
    rw [halign] at h3
    have h4 : (Except.ok ([0xFF, 0xD8] ++ create_minimal_exif o ++ W.drop 2) :
        Except Error (List Nat)) = .ok out := h3
    have hout : out = [0xFF, 0xD8] ++ create_minimal_exif o ++ W.drop 2 := by
      cases h4
      rfl
    rw [hout, splicePoint, hscan]
    have htake : W.take 2 = [0xFF, 0xD8] := by rw [hWsuf]; rfl
    rw [htake]
  · rw [hscan] at halign
    dsimp only at halign
    rw [halign] at h3
    have h4 : (Except.ok (slice W 0 (j + 2 + be16at W (j + 2)) ++ create_minimal_exif o ++
        W.drop (j + 2 + be16at W (j + 2))) : Except Error (List Nat)) = .ok out := h3
    have hout : out = slice W 0 (j + 2 + be16at W (j + 2)) ++ create_minimal_exif o ++
        W.drop (j + 2 + be16at W (j + 2)) := by
      cases h4
      rfl
    rw [hout, splicePoint, hscan]
    have hsl : slice W 0 (j + 2 + be16at W (j + 2)) = W.take (j + 2 + be16at W (j + 2)) := by
      rw [slice]
      simp
    rw [hsl]

/-- Witness for `clean_metadata_splice_point` at the C1 concrete input
(the scan fires at index 4, both size bytes and the slice end 8 are
within the 10-byte rebuilt stream). -/
theorem clean_metadata_splice_point_witness :
    c1Actual = c1Rebuilt.take (splicePoint c1Rebuilt) ++ create_minimal_exif 1 ++
      c1Rebuilt.drop (splicePoint c1Rebuilt) :=
  clean_metadata_splice_point vTrue c1Input c1Actual c1Rebuilt 1
    (by decide) (by decide) (by decide)
    (fun j h => by
      have h2 : (some 4 : Option Nat) = some j :=
        (show ffE0Scan c1Rebuilt (c1Rebuilt.length + 1) 0 = some 4 by decide).symm.trans h
      cases h2
      exact ⟨by decide, by decide⟩)

/-! ## PNG: `clean_chunks` as a filter over the chunk sequence (C4) -/

/-- The bytes `clean_chunks` keeps from a collected chunk list. -/
def keptBytes (cs : List (List Nat × List Nat)) : List Nat :=
  ((cs.filter (fun c => isCritical c.1)).map (fun c => c.2)).flatten

/-- `clean_chunks`'s walk IS the filter of the collected chunk sequence
by the `CRITICAL_CHUNKS` allow-list, chunk by chunk. -/
theorem cleanPngWalk_eq_collect (data : List Nat) :
    ∀ (fuel pos : Nat),
      cleanPngWalk data fuel pos = (collectChunks data fuel pos).map keptBytes := by
  intro fuel
  induction fuel with
  | zero => intro pos; rfl
  | succ fuel ih =>
    intro pos
    rw [cleanPngWalk, collectChunks]
    by_cases h1 : pos < data.length
    case neg => rw [if_neg h1, if_neg h1]; rfl
    rw [if_pos h1, if_pos h1]
    by_cases h2 : pos + 4 > data.length
    · rw [if_pos h2, if_pos h2]; rfl
    rw [if_neg h2, if_neg h2]
    by_cases h3 : pos + 8 > data.length
    · rw [if_pos h3, if_pos h3]; rfl
    rw [if_neg h3, if_neg h3]
    by_cases h4 : ¬utf8Valid (slice data (pos + 4) (pos + 8)) = true
    · rw [if_pos h4, if_pos h4]; rfl
    rw [if_neg h4, if_neg h4]
    by_cases h5 : pos + (12 + be32at data pos) > data.length
    · rw [if_pos h5, if_pos h5]; rfl
    rw [if_neg h5, if_neg h5]
    by_cases h6 : slice data (pos + 4) (pos + 8) = IENDb
    · rw [if_pos h6, if_pos h6]
      by_cases h7 : isCritical (slice data (pos + 4) (pos + 8)) = true
      · simp [keptBytes, h7, List.filter, Except.map]
      · simp [keptBytes, h7, List.filter, Except.map]
    · rw [if_neg h6, if_neg h6]
      rw [ih (pos + (12 + be32at data pos))]
      cases collectChunks data fuel (pos + (12 + be32at data pos)) with
      | error e => rfl
      | ok cs =>
        by_cases h7 : isCritical (slice data (pos + 4) (pos + 8)) = true
        · simp [keptBytes, h7, List.filter, Except.map]
        · simp [keptBytes, h7, List.filter, Except.map]

/-- C4: on every accepted PNG, `clean_chunks` returns the signature
followed, byte-for-byte verbatim and in input order, by exactly the
collected chunks whose type is in the allow-list; the collection walk
itself stops at IEND, inclusively (see `collectChunks`).  The decidable
conjuncts pin the allow-list: the four text/ancillary types named by the
claim are dropped, IEND is kept, and the list is exactly the 11 types. -/
theorem clean_chunks_characterization (v : List Nat → Bool) (data out : List Nat)
    (h : clean_chunks v data = .ok out) :
    (∃ cs, collectChunks data data.length 8 = .ok cs ∧
      out = data.take 8 ++ keptBytes cs) ∧
    isCritical tEXtb = false ∧ isCritical zTXtb = false ∧
    isCritical iTXtb = false ∧ isCritical bKGDb = false ∧
    isCritical IENDb = true ∧
    (∀ ty, isCritical ty = true ↔ ty ∈ CRITICAL_CHUNKS) := by
  refine ⟨?_, by decide, by decide, by decide, by decide, by decide,
    fun ty => by simp [isCritical]⟩
  by_cases h1 : data.length < 8 ∨ data.take 8 ≠ PNG_SIG
  · rw [clean_chunks, if_pos h1] at h
    exact Except.noConfusion h
  by_cases hvx : v data = true
  case neg =>
    rw [clean_chunks, if_neg h1, validate_png_decode, if_neg hvx] at h
    exact Except.noConfusion h
  have h2 : (match cleanPngWalk data data.length 8 with
      | .error e => (.error e : Except Error (List Nat))
      | .ok suffix =>
        match validate_png_decode v (data.take 8 ++ suffix) with
        | .error e => .error e
        | .ok _ => .ok (data.take 8 ++ suffix)) = .ok out := by
    rw [← h, clean_chunks, if_neg h1, validate_png_decode, if_pos hvx]
  rw [cleanPngWalk_eq_collect] at h2
  rcases hcol : collectChunks data data.length 8 with e | cs
  · rw [hcol] at h2
    exact Except.noConfusion h2
  · rw [hcol] at h2
    have h3 : (match validate_png_decode v (data.take 8 ++ keptBytes cs) with
        | .error e => (.error e : Except Error (List Nat))
        | .ok _ => .ok (data.take 8 ++ keptBytes cs)) = .ok out := h2
    by_cases hvy : v (data.take 8 ++ keptBytes cs) = true
    · have h5 : validate_png_decode v (data.take 8 ++ keptBytes cs) = .ok () := by
        rw [validate_png_decode, if_pos hvy]
      rw [h5] at h3
      have h6 : (Except.ok (data.take 8 ++ keptBytes cs) : Except Error (List Nat)) =
          .ok out := h3
      exact ⟨cs, rfl, by cases h6; rfl⟩
    · have h5 : validate_png_decode v (data.take 8 ++ keptBytes cs) =
          .error (.InvalidFormat "Invalid PNG") := by
        rw [validate_png_decode, if_neg hvy]
      rw [h5] at h3
      exact Except.noConfusion h3

/-- Witness for `clean_chunks_characterization` on a PNG holding a tEXt
chunk and IEND. -/
theorem clean_chunks_characterization_witness :
    (∃ cs, collectChunks c6Png c6Png.length 8 = .ok cs ∧
      [137, 80, 78, 71, 13, 10, 26, 10, 0, 0, 0, 0, 73, 69, 78, 68, 0, 0, 0, 0] =
        c6Png.take 8 ++ keptBytes cs) ∧
    isCritical tEXtb = false ∧ isCritical zTXtb = false ∧
    isCritical iTXtb = false ∧ isCritical bKGDb = false ∧
    isCritical IENDb = true ∧
    (∀ ty, isCritical ty = true ↔ ty ∈ CRITICAL_CHUNKS) :=
  clean_chunks_characterization vTrue c6Png
    [137, 80, 78, 71, 13, 10, 26, 10, 0, 0, 0, 0, 73, 69, 78, 68, 0, 0, 0, 0] (by decide)

/-! ## PNG chunk runs -/

/-- A serialized PNG chunk: 4 length bytes, a 4-byte type, and the body
(declared data plus the 4 CRC bytes). -/
structure PChunk where
  b0 : Nat
  b1 : Nat
  b2 : Nat
  b3 : Nat
  ty : List Nat
  body : List Nat

/-- The declared data length of the chunk. -/
def chunkLen (c : PChunk) : Nat := 2 ^ 24 * c.b0 + 2 ^ 16 * c.b1 + 2 ^ 8 * c.b2 + c.b3

/-- The raw bytes of the chunk. -/
def chunkBytes (c : PChunk) : List Nat := c.b0 :: c.b1 :: c.b2 :: c.b3 :: (c.ty ++ c.body)

/-- Well-formed serialized chunk: 4 type bytes and a body of the declared
length plus the CRC. -/
def chunkWF (c : PChunk) : Prop := c.ty.length = 4 ∧ c.body.length = chunkLen c + 4

/-- Concatenation of serialized chunks. -/
def joinChunks (cs : List PChunk) : List Nat := (cs.map chunkBytes).flatten

@[simp] theorem joinChunks_nil : joinChunks [] = [] := rfl

@[simp] theorem joinChunks_cons (c : PChunk) (l : List PChunk) :
    joinChunks (c :: l) = chunkBytes c ++ joinChunks l := by
  unfold joinChunks
  simp

theorem chunkBytes_length (c : PChunk) (h : chunkWF c) :
    (chunkBytes c).length = 12 + chunkLen c := by
  obtain ⟨h1, h2⟩ := h
  simp [chunkBytes, h1, h2]
  omega

theorem slice_split (d : List Nat) (a b c : Nat) (hab : a ≤ b) (hbc : b ≤ c) :
    slice d a c = slice d a b ++ slice d b c := by
  unfold slice
  rw [show c - a = (b - a) + (c - b) by omega, List.take_add]
  congr 1
  have h : (d.drop a).drop (b - a) = d.drop b := by
    rw [List.drop_drop]
    congr 1
    omega
  rw [h]

/-- All facts a chunk walk needs to traverse one well-formed chunk lying
at position `p.length` of the buffer. -/
theorem chunk_step_facts (y p rest : List Nat) (c : PChunk)
    (hy : y = p ++ chunkBytes c ++ rest) (hwf : chunkWF c) :
    p.length < y.length ∧
    ¬(p.length + 4 > y.length) ∧
    ¬(p.length + 8 > y.length) ∧
    be32at y p.length = chunkLen c ∧
    slice y (p.length + 4) (p.length + 8) = c.ty ∧
    ¬(p.length + (12 + chunkLen c) > y.length) ∧
    p.length + (12 + chunkLen c) = p.length + (chunkBytes c).length ∧
    slice y p.length (p.length + (12 + chunkLen c)) = chunkBytes c ∧
    slice y (p.length + 8) (p.length + 8 + chunkLen c) = c.body.take (chunkLen c) := by
  obtain ⟨hty, hbody⟩ := hwf
  have hcbl : (chunkBytes c).length = 12 + chunkLen c := chunkBytes_length c ⟨hty, hbody⟩
  have hylen : y.length = p.length + (12 + chunkLen c) + rest.length := by
    rw [hy]
    simp [hcbl]
    omega
  have hy4 : y = p ++ (c.b0 :: c.b1 :: c.b2 :: c.b3 :: (c.ty ++ (c.body ++ rest))) := by
    rw [hy, chunkBytes]
    simp
  refine ⟨by omega, by omega, by omega, ?_, ?_, by omega, by omega, ?_, ?_⟩
  · have e0 : byteAt (p ++ (c.b0 :: c.b1 :: c.b2 :: c.b3 :: (c.ty ++ (c.body ++ rest))))
        p.length = c.b0 := by
      have h := byteAt_append p (c.b0 :: c.b1 :: c.b2 :: c.b3 :: (c.ty ++ (c.body ++ rest))) 0
      simpa using h
    have e1 : byteAt (p ++ (c.b0 :: c.b1 :: c.b2 :: c.b3 :: (c.ty ++ (c.body ++ rest))))
        (p.length + 1) = c.b1 := by
      have h := byteAt_append p (c.b0 :: c.b1 :: c.b2 :: c.b3 :: (c.ty ++ (c.body ++ rest))) 1
      simpa [byteAt] using h
    have e2 : byteAt (p ++ (c.b0 :: c.b1 :: c.b2 :: c.b3 :: (c.ty ++ (c.body ++ rest))))
        (p.length + 2) = c.b2 := by
      have h := byteAt_append p (c.b0 :: c.b1 :: c.b2 :: c.b3 :: (c.ty ++ (c.body ++ rest))) 2
      simpa [byteAt] using h
    have e3 : byteAt (p ++ (c.b0 :: c.b1 :: c.b2 :: c.b3 :: (c.ty ++ (c.body ++ rest))))
        (p.length + 3) = c.b3 := by
      have h := byteAt_append p (c.b0 :: c.b1 :: c.b2 :: c.b3 :: (c.ty ++ (c.body ++ rest))) 3
      simpa [byteAt] using h
    rw [be32at, hy4, e0, e1, e2, e3]
    rfl
  · have h4 : y = (p ++ [c.b0, c.b1, c.b2, c.b3]) ++ c.ty ++ (c.body ++ rest) := by
      rw [hy4]
      simp
    have := slice_append_exact (p ++ [c.b0, c.b1, c.b2, c.b3]) c.ty (c.body ++ rest)
    rw [← h4] at this
    simp only [List.length_append, List.length_cons, List.length_nil, hty] at this
    rw [show p.length + 4 = p.length + 0 + 1 + 1 + 1 + 1 by omega,
      show p.length + 8 = p.length + 0 + 1 + 1 + 1 + 1 + 4 by omega]
    exact this
  · have := slice_append_exact p (chunkBytes c) rest
    rw [← hy, hcbl] at this
    exact this
  · have h4 : y = (p ++ [c.b0, c.b1, c.b2, c.b3] ++ c.ty) ++ c.body ++ rest := by
      rw [hy4]
      simp
    have hb := slice_append_exact (p ++ [c.b0, c.b1, c.b2, c.b3] ++ c.ty) c.body rest
    rw [← h4] at hb
    simp only [List.length_append, List.length_cons, List.length_nil, hty] at hb
    have hb' : slice y (p.length + 8) (p.length + 8 + c.body.length) = c.body := by
      rw [show p.length + 8 = p.length + 0 + 1 + 1 + 1 + 1 + 4 by omega]
      exact hb
    have htk := slice_take y (p.length + 8) (p.length + 8 + c.body.length) (chunkLen c)
      (by omega)
    rw [hb'] at htk
    exact htk.symm

/-- Elimination of a successful `clean_chunks`: the collected chunk list,
the output's shape, and the final validation. -/
theorem clean_chunks_ok_elim (v : List Nat → Bool) (data out : List Nat)
    (h : clean_chunks v data = .ok out) :
    8 ≤ data.length ∧ data.take 8 = PNG_SIG ∧
    ∃ cs, collectChunks data data.length 8 = .ok cs ∧
      out = data.take 8 ++ keptBytes cs ∧ v out = true := by
  by_cases h1 : data.length < 8 ∨ data.take 8 ≠ PNG_SIG
  · rw [clean_chunks, if_pos h1] at h
    exact Except.noConfusion h
  by_cases hvx : v data = true
  case neg =>
    rw [clean_chunks, if_neg h1, validate_png_decode, if_neg hvx] at h
    exact Except.noConfusion h
  have h2 : (match cleanPngWalk data data.length 8 with
      | .error e => (.error e : Except Error (List Nat))
      | .ok suffix =>
        match validate_png_decode v (data.take 8 ++ suffix) with
        | .error e => .error e
        | .ok _ => .ok (data.take 8 ++ suffix)) = .ok out := by
    rw [← h, clean_chunks, if_neg h1, validate_png_decode, if_pos hvx]
  rw [not_or, not_lt] at h1
  rw [cleanPngWalk_eq_collect] at h2
  rcases hcol : collectChunks data data.length 8 with e | cs
  · rw [hcol] at h2
    exact Except.noConfusion h2
  · rw [hcol] at h2
    have h3 : (match validate_png_decode v (data.take 8 ++ keptBytes cs) with
        | .error e => (.error e : Except Error (List Nat))
        | .ok _ => .ok (data.take 8 ++ keptBytes cs)) = .ok out := h2
    by_cases hvy : v (data.take 8 ++ keptBytes cs) = true
    · have h5 : validate_png_decode v (data.take 8 ++ keptBytes cs) = .ok () := by
        rw [validate_png_decode, if_pos hvy]
      rw [h5] at h3
      have h6 : (Except.ok (data.take 8 ++ keptBytes cs) : Except Error (List Nat)) =
          .ok out := h3
      have hout : out = data.take 8 ++ keptBytes cs := by cases h6; rfl
      exact ⟨h1.1, not_ne_iff.mp h1.2, cs, rfl, hout, by rw [hout]; exact hvy⟩
    · have h5 : validate_png_decode v (data.take 8 ++ keptBytes cs) =
          .error (.InvalidFormat "Invalid PNG") := by
        rw [validate_png_decode, if_neg hvy]
      rw [h5] at h3
      exact Except.noConfusion h3

/-- A buffer region whose 4-byte length field covers it is one serialized
chunk. -/
theorem slice_as_chunkBytes (data : List Nat) (pos : Nat)
    (h8 : pos + 8 ≤ data.length)
    (hsz : pos + (12 + be32at data pos) ≤ data.length) :
    ∃ c : PChunk, chunkWF c ∧ c.ty = slice data (pos + 4) (pos + 8) ∧
      chunkLen c = be32at data pos ∧
      c.body = slice data (pos + 8) (pos + (12 + be32at data pos)) ∧
      chunkBytes c = slice data pos (pos + (12 + be32at data pos)) := by
  refine ⟨⟨byteAt data pos, byteAt data (pos + 1), byteAt data (pos + 2),
    byteAt data (pos + 3), slice data (pos + 4) (pos + 8),
    slice data (pos + 8) (pos + (12 + be32at data pos))⟩, ⟨?_, ?_⟩, rfl, rfl, rfl, ?_⟩
  · rw [slice_length data _ _ (by omega)]
    omega
  · rw [slice_length data _ _ (by omega)]
    show pos + (12 + be32at data pos) - (pos + 8) = be32at data pos + 4
    omega
  · have key : slice data pos (pos + (12 + be32at data pos)) =
      byteAt data pos :: byteAt data (pos + 1) :: byteAt data (pos + 2) ::
        byteAt data (pos + 3) ::
        (slice data (pos + 4) (pos + 8) ++
          slice data (pos + 8) (pos + (12 + be32at data pos))) := by
      rw [slice_split data pos (pos + 4) (pos + (12 + be32at data pos)) (by omega) (by omega),
        slice_split data (pos + 4) (pos + 8) (pos + (12 + be32at data pos)) (by omega) (by omega),
        slice_eq_byteAt_cons data pos (pos + 4) (by omega) (by omega),
        slice_eq_byteAt_cons data (pos + 1) (pos + 4) (by omega) (by omega),
        slice_eq_byteAt_cons data (pos + 2) (pos + 4) (by omega) (by omega),
        slice_eq_byteAt_cons data (pos + 3) (pos + 4) (by omega) (by omega),
        show pos + 1 + 1 + 1 = pos + 3 by omega, show pos + 1 + 1 = pos + 2 by omega,
        show slice data (pos + 4) (pos + 4) = [] by simp [slice]]
      rfl
    exact key.symm

/-- The collected chunk pairs are serialized well-formed chunks with
UTF-8-valid types, and IEND can occur only as the final one. -/
theorem collectChunks_char (data : List Nat) :
    ∀ (fuel pos : Nat) (cs : List (List Nat × List Nat)),
      collectChunks data fuel pos = .ok cs →
      ∃ pcs : List PChunk, cs = pcs.map (fun c => (c.ty, chunkBytes c)) ∧
        (∀ c ∈ pcs, chunkWF c ∧ utf8Valid c.ty = true) ∧
        ((∀ c ∈ pcs, c.ty ≠ IENDb) ∨
          ∃ pre last, pcs = pre ++ [last] ∧ (∀ c ∈ pre, c.ty ≠ IENDb) ∧ last.ty = IENDb) := by
  intro fuel
  induction fuel with
  | zero => intro pos cs h; exact Except.noConfusion h
  | succ fuel ih =>
    intro pos cs h
    rw [collectChunks] at h
    by_cases h1 : pos < data.length
    case neg =>
      rw [if_neg h1] at h
      have hcs : cs = [] := by cases h; rfl
      exact ⟨[], by simp [hcs], by simp, Or.inl (by simp)⟩
    rw [if_pos h1] at h
    by_cases h2 : pos + 4 > data.length
    · rw [if_pos h2] at h
      exact Except.noConfusion h
    rw [if_neg h2] at h
    by_cases h3 : pos + 8 > data.length
    · rw [if_pos h3] at h
      exact Except.noConfusion h
    rw [if_neg h3] at h
    by_cases h4 : ¬utf8Valid (slice data (pos + 4) (pos + 8)) = true
    · rw [if_pos h4] at h
      exact Except.noConfusion h
    rw [if_neg h4] at h
    by_cases h5 : pos + (12 + be32at data pos) > data.length
    · rw [if_pos h5] at h
      exact Except.noConfusion h
    rw [if_neg h5] at h
    obtain ⟨c, hcwf, hcty, hclen, hcbody, hcbytes⟩ :=
      slice_as_chunkBytes data pos (by omega) (by omega)
    by_cases h6 : slice data (pos + 4) (pos + 8) = IENDb
    · rw [if_pos h6] at h
      have hcs : cs = [(slice data (pos + 4) (pos + 8),
          slice data pos (pos + (12 + be32at data pos)))] := by
        cases h; rfl
      refine ⟨[c], by simp [hcs, hcty, hcbytes], ?_, Or.inr ⟨[], c, by simp, by simp, ?_⟩⟩
      · intro a ha
        rw [List.mem_singleton] at ha
        subst ha
        exact ⟨hcwf, by rw [hcty]; simpa using h4⟩
      · rw [hcty]
        exact h6
    · rw [if_neg h6] at h
      obtain ⟨cs2, hcs2, hcons⟩ := except_map_ok _ _ _ h
      obtain ⟨pcs, hmap, hwf, hstruct⟩ := ih (pos + (12 + be32at data pos)) cs2 hcs2
      refine ⟨c :: pcs, ?_, ?_, ?_⟩
      · rw [hcons, hmap]
        simp [hcty, hcbytes]
      · intro a ha
        rcases List.mem_cons.mp ha with h7 | h7
        · subst h7
          exact ⟨hcwf, by rw [hcty]; simpa using h4⟩
        · exact hwf a h7
      · rcases hstruct with hleft | ⟨pre, last, hsplit, hpre, hlast⟩
        · refine Or.inl ?_
          intro a ha
          rcases List.mem_cons.mp ha with h7 | h7
          · subst h7
            rw [hcty]
            exact h6
          · exact hleft a h7
        · refine Or.inr ⟨c :: pre, last, by rw [hsplit]; rfl, ?_, hlast⟩
          intro a ha
          rcases List.mem_cons.mp ha with h7 | h7
          · subst h7
            rw [hcty]
            exact h6
          · exact hpre a h7

/-- keptBytes over the pair view is the concatenation of the critical
chunks. -/
theorem keptBytes_map (pcs : List PChunk) :
    keptBytes (pcs.map (fun c => (c.ty, chunkBytes c))) =
      joinChunks (pcs.filter (fun c => isCritical c.ty)) := by
  induction pcs with
  | nil => rfl
  | cons c l ih =>
    by_cases h : isCritical c.ty = true
    · simp [keptBytes, joinChunks, List.filter, h] at ih ⊢
      exact ih
    · have hf : isCritical c.ty = false := by simpa using h
      simp only [List.map_cons, keptBytes, List.filter] at ih ⊢
      simp only [hf]
      exact ih

/-- A run of well-formed chunks has at least one byte per chunk. -/
theorem joinChunks_length_ge (kept : List PChunk)
    (h : ∀ c ∈ kept, chunkWF c) : kept.length ≤ (joinChunks kept).length := by
  induction kept with
  | nil => simp
  | cons c l ih =>
    have h1 := chunkBytes_length c (h c (List.mem_cons_self c l))
    have h2 := ih (fun d hd => h d (List.mem_cons_of_mem c hd))
    rw [joinChunks_cons]
    simp only [List.length_cons, List.length_append]
    omega

/-- The cleaning walk reproduces verbatim a run of well-formed critical
chunks (with IEND at most last) laid out after an arbitrary prefix. -/
theorem cleanPngWalk_run (kept : List PChunk) :
    ∀ (p : List Nat) (n : Nat),
      (∀ c ∈ kept, chunkWF c ∧ utf8Valid c.ty = true ∧ isCritical c.ty = true) →
      ((∀ c ∈ kept, c.ty ≠ IENDb) ∨
        ∃ pre last, kept = pre ++ [last] ∧ (∀ c ∈ pre, c.ty ≠ IENDb) ∧ last.ty = IENDb) →
      cleanPngWalk (p ++ joinChunks kept) (kept.length + 1 + n) p.length =
        .ok (joinChunks kept) := by
  induction kept with
  | nil =>
    intro p n _ _
    have hfuel : ([] : List PChunk).length + 1 + n = n + 1 := by
      simp [Nat.add_comm]
    rw [hfuel, cleanPngWalk,
      if_neg (show ¬(p.length < (p ++ joinChunks []).length) by simp)]
    rfl
  | cons c l ih =>
    intro p n hall hstruct
    obtain ⟨hwf, hutf, hcrit⟩ := hall c (List.mem_cons_self c l)
    have hy : p ++ joinChunks (c :: l) = p ++ chunkBytes c ++ joinChunks l := by
      rw [joinChunks_cons, List.append_assoc]
    obtain ⟨hf1, hf2, hf3, hbe, hty, hf5, hpos, hslice, _⟩ :=
      chunk_step_facts (p ++ joinChunks (c :: l)) p (joinChunks l) c hy hwf
    have hfuel : (c :: l).length + 1 + n = (l.length + 1 + n) + 1 := by
      simp only [List.length_cons]
      omega
    rw [hfuel, cleanPngWalk, if_pos hf1, if_neg hf2, if_neg hf3]
    rw [if_neg (show ¬¬utf8Valid (slice (p ++ joinChunks (c :: l)) (p.length + 4)
      (p.length + 8)) = true by rw [hty]; exact not_not_intro hutf)]
    rw [if_neg (show ¬(p.length + (12 + be32at (p ++ joinChunks (c :: l)) p.length) >
      (p ++ joinChunks (c :: l)).length) by rw [hbe]; exact hf5)]
    have hkept : (if isCritical (slice (p ++ joinChunks (c :: l)) (p.length + 4)
        (p.length + 8)) then
          slice (p ++ joinChunks (c :: l)) p.length
            (p.length + (12 + be32at (p ++ joinChunks (c :: l)) p.length))
        else []) = chunkBytes c := by
      rw [hty, hcrit, if_pos rfl, hbe, hslice]
    by_cases hcty : c.ty = IENDb
    · have hl : l = [] := by
        rcases hstruct with hleft | ⟨pre, last, hsp, hpre, hlast⟩
        · exact absurd hcty (hleft c (List.mem_cons_self c l))
        · cases pre with
          | nil =>
            simp only [List.nil_append] at hsp
            exact (List.cons_eq_cons.mp hsp).2
          | cons a pre2 =>
            simp only [List.cons_append] at hsp
            exact absurd hcty (hpre c (by
              rw [(List.cons_eq_cons.mp hsp).1]
              exact List.mem_cons_self a pre2))
      rw [if_pos (show slice (p ++ joinChunks (c :: l)) (p.length + 4) (p.length + 8) =
        IENDb by rw [hty]; exact hcty)]
      rw [hkept, hl]
      simp
    · have hstail : (∀ d ∈ l, d.ty ≠ IENDb) ∨
          ∃ pre last, l = pre ++ [last] ∧ (∀ d ∈ pre, d.ty ≠ IENDb) ∧ last.ty = IENDb := by
        rcases hstruct with hleft | ⟨pre, last, hsp, hpre, hlast⟩
        · exact Or.inl (fun d hd => hleft d (List.mem_cons_of_mem c hd))
        · cases pre with
          | nil =>
            simp only [List.nil_append] at hsp
            exact absurd (show c.ty = IENDb by
              rw [(List.cons_eq_cons.mp hsp).1]
              exact hlast) hcty
          | cons a pre2 =>
            simp only [List.cons_append] at hsp
            obtain ⟨h7a, h7b⟩ := List.cons_eq_cons.mp hsp
            exact Or.inr ⟨pre2, last, h7b,
              fun d hd => hpre d (List.mem_cons_of_mem a hd), hlast⟩
      rw [if_neg (show ¬(slice (p ++ joinChunks (c :: l)) (p.length + 4) (p.length + 8) =
        IENDb) by rw [hty]; exact hcty)]
      rw [hkept]
      have hpos2 : p.length + (12 + be32at (p ++ joinChunks (c :: l)) p.length) =
          (p ++ chunkBytes c).length := by
        rw [hbe]
        simp only [List.length_append]
        omega
      rw [hpos2, hy]
      rw [ih (p ++ chunkBytes c) n (fun d hd => hall d (List.mem_cons_of_mem c hd)) hstail]
      simp [Except.map]

/-- `clean_chunks` is idempotent: its output is a signature followed by a
run of critical well-formed chunks, which a second walk keeps whole. -/
theorem clean_chunks_idem (v : List Nat → Bool) (data out : List Nat)
    (h : clean_chunks v data = .ok out) :
    clean_chunks v out = .ok out := by
  obtain ⟨hlen8, hsig, cs, hcol, hout, hv⟩ := clean_chunks_ok_elim v data out h
  obtain ⟨pcs, hmap, hwfall, hstruct⟩ := collectChunks_char data data.length 8 cs hcol
  have hkb : keptBytes cs = joinChunks (pcs.filter (fun c => isCritical c.ty)) := by
    rw [hmap]
    exact keptBytes_map pcs
  have hout2 : out = PNG_SIG ++ joinChunks (pcs.filter (fun c => isCritical c.ty)) := by
    rw [hout, hsig, hkb]
  have hkall : ∀ c ∈ pcs.filter (fun c => isCritical c.ty),
      chunkWF c ∧ utf8Valid c.ty = true ∧ isCritical c.ty = true := by
    intro c hc
    obtain ⟨hwf2, hutf2⟩ := hwfall c (List.mem_of_mem_filter hc)
    exact ⟨hwf2, hutf2, by simpa using List.of_mem_filter hc⟩
  have hkstruct : (∀ c ∈ pcs.filter (fun c => isCritical c.ty), c.ty ≠ IENDb) ∨
      ∃ pre last, pcs.filter (fun c => isCritical c.ty) = pre ++ [last] ∧
        (∀ c ∈ pre, c.ty ≠ IENDb) ∧ last.ty = IENDb := by
    rcases hstruct with hleft | ⟨pre, last, hsp, hpre, hlast⟩
    · exact Or.inl (fun c hc => hleft c (List.mem_of_mem_filter hc))
    · refine Or.inr ⟨pre.filter (fun c => isCritical c.ty), last, ?_, ?_, hlast⟩
      · have hcl : isCritical last.ty = true := by
          rw [hlast]
          decide
        rw [hsp, List.filter_append]
        simp [List.filter_cons, hcl]
      · intro c hc
        exact hpre c (List.mem_of_mem_filter hc)
  have hjlen := joinChunks_length_ge (pcs.filter (fun c => isCritical c.ty))
    (fun c hc => (hkall c hc).1)
  have houtlen : out.length =
      8 + (joinChunks (pcs.filter (fun c => isCritical c.ty))).length := by
    rw [hout2]
    simp [PNG_SIG]
    omega
  have hwalk : cleanPngWalk out out.length 8 =
      .ok (joinChunks (pcs.filter (fun c => isCritical c.ty))) := by
    have h1 := cleanPngWalk_run (pcs.filter (fun c => isCritical c.ty)) PNG_SIG
      (out.length - (pcs.filter (fun c => isCritical c.ty)).length - 1) hkall hkstruct
    have h2 : (pcs.filter (fun c => isCritical c.ty)).length + 1 +
        (out.length - (pcs.filter (fun c => isCritical c.ty)).length - 1) = out.length := by
      omega
    rw [h2] at h1
    rw [hout2]
    rw [show (PNG_SIG ++ joinChunks (pcs.filter (fun c => isCritical c.ty))).length =
      out.length by rw [← hout2]]
    exact h1
  have hsig8 : out.take 8 = PNG_SIG := by
    rw [hout2, show (8 : Nat) = (PNG_SIG : List Nat).length from rfl, List.take_left]
  rw [clean_chunks,
    if_neg (show ¬(out.length < 8 ∨ out.take 8 ≠ PNG_SIG) by
      rw [not_or]
      exact ⟨by omega, not_ne_iff.mpr hsig8⟩),
    validate_png_decode, if_pos hv, hwalk]
  have hfix : out.take 8 ++ joinChunks (pcs.filter (fun c => isCritical c.ty)) = out := by
    rw [hsig8, hout2]
  show (match validate_png_decode v
      (out.take 8 ++ joinChunks (pcs.filter (fun c => isCritical c.ty))) with
    | .error e => (.error e : Except Error (List Nat))
    | .ok _ => .ok (out.take 8 ++ joinChunks (pcs.filter (fun c => isCritical c.ty)))) =
      .ok out
  rw [hfix, validate_png_decode, if_pos hv]

/-- C7 (amended): `clean_chunks` is idempotent on every input it accepts,
for every decoder instantiation.  `clean_metadata` is idempotent on every
accepted JPEG whose walk captured no orientation in `[1,8]` (so the
splice path of jpeg.rs:111-147 is not taken) and whose output has at
least 4 bytes; idempotence on the splice path itself is false
(`c7_counterexample`). -/
theorem clean_idempotence (v vj : List Nat → Bool) (data out jdata jout W : List Nat)
    (orient : Option Nat)
    (hpng : clean_chunks v data = .ok out)
    (hj : clean_metadata vj jdata = .ok jout)
    (hW : cleanOutput jdata = .ok (W, orient))
    (ho : ∀ o, orient = some o → ¬(1 ≤ o ∧ o ≤ 8))
    (hlen : 4 ≤ jout.length) :
    clean_chunks v out = .ok out ∧ clean_metadata vj jout = .ok jout :=
  ⟨clean_chunks_idem v data out hpng,
    clean_metadata_idem_noSplice vj jdata jout W orient hj hW ho hlen⟩

/-- Witness for `clean_idempotence`: the PNG of `c6Png` and a minimal
JPEG with no EXIF segment. -/
theorem clean_idempotence_witness :
    clean_chunks vTrue
        [137, 80, 78, 71, 13, 10, 26, 10, 0, 0, 0, 0, 73, 69, 78, 68, 0, 0, 0, 0] =
      .ok [137, 80, 78, 71, 13, 10, 26, 10, 0, 0, 0, 0, 73, 69, 78, 68, 0, 0, 0, 0] ∧
    clean_metadata vTrue [0xFF, 0xD8, 0xFF, 0xDA, 0x00, 0x00] =
      .ok [0xFF, 0xD8, 0xFF, 0xDA, 0x00, 0x00] :=
  clean_idempotence vTrue vTrue c6Png
    [137, 80, 78, 71, 13, 10, 26, 10, 0, 0, 0, 0, 73, 69, 78, 68, 0, 0, 0, 0]
    [0xFF, 0xD8, 0xFF, 0xDA, 0x00, 0x00] [0xFF, 0xD8, 0xFF, 0xDA, 0x00, 0x00]
    [0xFF, 0xD8, 0xFF, 0xDA, 0x00, 0x00] none
    (by decide) (by decide) (by decide) (fun o h => Option.noConfusion h) (by decide)

/-! ## PNG text-chunk machinery (C5, C6, C9) -/

theorem byteAt_agree (y d : List Nat) (q i : Nat) (h : y.take q = d.take q)
    (hi : i < q) : byteAt y i = byteAt d i := by
  have hy : (y.take q).getD i 0 = y.getD i 0 := by
    simp [List.getD, List.getElem?_take, hi]
  have hd : (d.take q).getD i 0 = d.getD i 0 := by
    simp [List.getD, List.getElem?_take, hi]
  unfold byteAt
  rw [← hy, ← hd, h]

theorem be32at_agree (y d : List Nat) (q i : Nat) (h : y.take q = d.take q)
    (hi : i + 4 ≤ q) : be32at y i = be32at d i := by
  unfold be32at
  rw [byteAt_agree y d q i h (by omega), byteAt_agree y d q (i + 1) h (by omega),
    byteAt_agree y d q (i + 2) h (by omega), byteAt_agree y d q (i + 3) h (by omega)]

theorem slice_of_take (l : List Nat) (q a b : Nat) (hb : b ≤ q) :
    slice (l.take q) a b = slice l a b := by
  unfold slice
  rw [List.drop_take, List.take_take]
  congr 1
  omega

theorem slice_agree (y d : List Nat) (q a b : Nat) (h : y.take q = d.take q)
    (hb : b ≤ q) : slice y a b = slice d a b := by
  rw [← slice_of_take y q a b hb, h, slice_of_take d q a b hb]

theorem slice_drop (l : List Nat) (q a b : Nat) :
    slice (l.drop q) a b = slice l (q + a) (q + b) := by
  unfold slice
  rw [List.drop_drop, show q + b - (q + a) = b - a by omega]

theorem take_prefix_eq (l1 l2 : List Nat) (q : Nat) (h : l1.length = q) :
    (l1 ++ l2).take q = l1 := by
  rw [← h, List.take_left]

theorem drop_prefix_eq (l1 l2 : List Nat) (q : Nat) (h : l1.length = q) :
    (l1 ++ l2).drop q = l2 := by
  rw [← h, drop_append_len_zero]

theorem take_len (l : List Nat) (q : Nat) (h : q ≤ l.length) :
    (l.take q).length = q := by
  simp [List.length_take]
  omega

theorem take_slice_take (d : List Nat) (q : Nat) (h8 : 8 ≤ q) (hq : q ≤ d.length) :
    d.take 8 ++ slice d 8 q = d.take q := by
  unfold slice
  conv_rhs => rw [show q = 8 + (q - 8) by omega]
  rw [List.take_add]

theorem findIdx_null (t : List Nat) :
    ∀ (k : List Nat) (i : Nat), (∀ b ∈ k, b ≠ 0) →
      List.findIdx? (fun x => x == 0) (k ++ 0 :: t) i = some (i + k.length) := by
  intro k
  induction k with
  | nil =>
    intro i h
    simp [List.findIdx?_cons]
  | cons a k ih =>
    intro i h
    have ha : (a == 0) = false := by
      simpa using h a (List.mem_cons_self a k)
    rw [List.cons_append, List.findIdx?_cons, ha,
      if_neg (show ¬(false = true) by simp),
      ih (i + 1) (fun b hb => h b (List.mem_cons_of_mem a hb))]
    simp only [List.length_cons]
    congr 1
    omega

theorem findIdx_none_of_nonnull (l : List Nat) :
    ∀ i, (∀ b ∈ l, b ≠ 0) → List.findIdx? (fun x => x == 0) l i = none := by
  induction l with
  | nil => intro i h; rfl
  | cons a l ih =>
    intro i h
    have ha : (a == 0) = false := by
      simpa using h a (List.mem_cons_self a l)
    rw [List.findIdx?_cons, ha, if_neg (show ¬(false = true) by simp)]
    exact ih (i + 1) (fun b hb => h b (List.mem_cons_of_mem a hb))

/-- A validated keyword has no null byte. -/
theorem keyword_nonzero (k : List Nat) (h : k.all isKeywordByte = true) :
    ∀ b ∈ k, b ≠ 0 := by
  intro b hb
  have := List.all_eq_true.mp h b hb
  simp [isKeywordByte] at this
  omega

/-- What a successful `locateIend` guarantees about the found position. -/
theorem locateIend_facts (data : List Nat) :
    ∀ fuel pos q, locateIend data fuel pos = some q →
      pos ≤ q ∧ q < data.length ∧ q + 8 ≤ data.length ∧
        slice data (q + 4) (q + 8) = IENDb := by
  intro fuel
  induction fuel with
  | zero => intro pos q h; exact Option.noConfusion h
  | succ fuel ih =>
    intro pos q h
    rw [locateIend] at h
    by_cases h1 : pos < data.length
    case neg => rw [if_neg h1] at h; exact Option.noConfusion h
    rw [if_pos h1] at h
    by_cases h2 : pos + 8 > data.length
    · rw [if_pos h2] at h
      exact Option.noConfusion h
    rw [if_neg h2] at h
    by_cases h3 : slice data (pos + 4) (pos + 8) = IENDb
    · rw [if_pos h3] at h
      have hq : pos = q := by cases h; rfl
      subst hq
      exact ⟨le_refl _, h1, by omega, h3⟩
    · rw [if_neg h3] at h
      by_cases h4 : pos + (12 + be32at data pos) > data.length
      · rw [if_pos h4] at h
        exact Option.noConfusion h
      · rw [if_neg h4] at h
        have h5 := ih (pos + (12 + be32at data pos)) q h
        exact ⟨by omega, h5.2.1, h5.2.2.1, h5.2.2.2⟩

/-- The text walk returns nothing at an IEND header, with any fuel. -/
theorem readTextWalk_iend (y : List Nat) (pos : Nat)
    (hty : slice y (pos + 4) (pos + 8) = IENDb) :
    ∀ fuel, readTextWalk y fuel pos = [] := by
  intro fuel
  cases fuel with
  | zero => rfl
  | succ fuel =>
    rw [readTextWalk]
    by_cases h1 : pos < y.length
    case neg => rw [if_neg h1]
    rw [if_pos h1]
    by_cases h2 : pos + 4 > y.length
    · rw [if_pos h2]
    rw [if_neg h2]
    by_cases h3 : pos + 8 > y.length
    · rw [if_pos h3]
    rw [if_neg h3]
    by_cases h4 : pos + (12 + be32at y pos) > y.length
    · rw [if_pos h4]
    rw [if_neg h4, if_pos hty]
    rw [if_neg (show ¬(slice y (pos + 4) (pos + 8) = tEXtb ∧ be32at y pos > 0) by
      rw [hty]
      intro hc
      exact absurd hc.1 (by decide))]

/-- One walk step over a serialized tEXt chunk with a null after a
null-free keyword: the entry `(keyword, text)` is collected and the walk
continues after the chunk. -/
theorem readTextWalk_text_step (p rest k t : List Nat) (c : PChunk) (m : Nat)
    (hwf : chunkWF c) (hty : c.ty = tEXtb)
    (hbody : c.body.take (chunkLen c) = k ++ 0 :: t)
    (hk : ∀ b ∈ k, b ≠ 0) :
    readTextWalk (p ++ chunkBytes c ++ rest) (m + 1) p.length =
      ⟨k, t⟩ :: readTextWalk (p ++ chunkBytes c ++ rest) m (p.length + (12 + chunkLen c)) := by
  obtain ⟨hf1, hf2, hf3, hbe, htys, hf5, hposq, hslice, hdata⟩ :=
    chunk_step_facts (p ++ chunkBytes c ++ rest) p rest c rfl hwf
  have hlen0 : 0 < chunkLen c := by
    have h1 : (c.body.take (chunkLen c)).length = chunkLen c := by
      rw [List.length_take]
      have := hwf.2
      omega
    rw [hbody] at h1
    simp at h1
    omega
  have htext : (if k.length + 1 < (k ++ 0 :: t).length then
      (k ++ 0 :: t).drop (k.length + 1) else []) = t := by
    cases t with
    | nil =>
      rw [if_neg (by simp)]
    | cons d t2 =>
      rw [if_pos (by simp only [List.length_append, List.length_cons]; omega),
        show k ++ 0 :: d :: t2 = (k ++ [0]) ++ (d :: t2) by simp,
        drop_prefix_eq (k ++ [0]) (d :: t2) (k.length + 1) (by simp)]
  rw [readTextWalk, if_pos hf1, if_neg hf2, if_neg hf3, hbe, if_neg hf5]
  rw [if_neg (show ¬(slice (p ++ chunkBytes c ++ rest) (p.length + 4) (p.length + 8) =
    IENDb) by rw [htys, hty]; decide)]
  rw [if_pos (And.intro (htys.trans hty) hlen0), hdata, hbody]
  dsimp only
  rw [findIdx_null t k 0 hk, Nat.zero_add]
  dsimp only
  rw [List.take_left, htext]
  rfl

/-- The text walk over the region `locate_iend` traverses: every chunk
before IEND is stepped over (collecting whatever entries it yields), and
the walk resumes at the IEND position with fuel to spare. -/
theorem readTextWalk_locate (d y : List Nat) (q : Nat)
    (htake : y.take q = d.take q) (hylen : d.length ≤ y.length) :
    ∀ fuel pos g, locateIend d fuel pos = some q →
      ∃ e0 m, g + 1 ≤ m ∧
        readTextWalk y (fuel + g) pos = e0 ++ readTextWalk y m q := by
  intro fuel
  induction fuel with
  | zero => intro pos g h; exact Option.noConfusion h
  | succ fuel ih =>
    intro pos g h
    rw [locateIend] at h
    by_cases h1 : pos < d.length
    case neg =>
      rw [if_neg h1] at h
      exact Option.noConfusion h
    rw [if_pos h1] at h
    by_cases h2 : pos + 8 > d.length
    · rw [if_pos h2] at h
      exact Option.noConfusion h
    rw [if_neg h2] at h
    by_cases h3 : slice d (pos + 4) (pos + 8) = IENDb
    · rw [if_pos h3] at h
      have hpq : pos = q := by cases h; rfl
      subst hpq
      exact ⟨[], fuel + 1 + g, by omega, by rw [List.nil_append]⟩
    · rw [if_neg h3] at h
      by_cases h4 : pos + (12 + be32at d pos) > d.length
      · rw [if_pos h4] at h
        exact Option.noConfusion h
      rw [if_neg h4] at h
      obtain ⟨hle, _, _, _⟩ := locateIend_facts d fuel (pos + (12 + be32at d pos)) q h
      have hbe2 : be32at y pos = be32at d pos :=
        be32at_agree y d q pos htake (by omega)
      have hsl : slice y (pos + 4) (pos + 8) = slice d (pos + 4) (pos + 8) :=
        slice_agree y d q (pos + 4) (pos + 8) htake (by omega)
      obtain ⟨e0, m, hm, hwalk⟩ := ih (pos + (12 + be32at d pos)) g h
      have hfuel2 : fuel + 1 + g = (fuel + g) + 1 := by omega
      exact ⟨_, m, hm, by
        rw [hfuel2, readTextWalk,
          if_pos (show pos < y.length by omega),
          if_neg (show ¬(pos + 4 > y.length) by omega),
          if_neg (show ¬(pos + 8 > y.length) by omega),
          hbe2,
          if_neg (show ¬(pos + (12 + be32at d pos) > y.length) by omega),
          if_neg (show ¬(slice y (pos + 4) (pos + 8) = IENDb) by rw [hsl]; exact h3),
          hwalk, ← List.append_assoc]⟩

/-- `locate_iend` on a buffer with one extra chunk inserted exactly at
the old IEND position finds the IEND shifted by the inserted length. -/
theorem locateIend_transport (d y : List Nat) (q Lc : Nat)
    (htake : y.take q = d.take q)
    (hylen : y.length = d.length + Lc)
    (hnot : ¬slice y (q + 4) (q + 8) = IENDb)
    (hsize : be32at y q = Lc - 12)
    (hLc : 12 ≤ Lc)
    (hq : q + 8 ≤ d.length)
    (hiend2 : slice y (q + Lc + 4) (q + Lc + 8) = IENDb) :
    ∀ fuel pos g, locateIend d fuel pos = some q →
      locateIend y (fuel + g + 1) pos = some (q + Lc) := by
  intro fuel
  induction fuel with
  | zero => intro pos g h; exact Option.noConfusion h
  | succ fuel ih =>
    intro pos g h
    rw [locateIend] at h
    by_cases h1 : pos < d.length
    case neg =>
      rw [if_neg h1] at h
      exact Option.noConfusion h
    rw [if_pos h1] at h
    by_cases h2 : pos + 8 > d.length
    · rw [if_pos h2] at h
      exact Option.noConfusion h
    rw [if_neg h2] at h
    by_cases h3 : slice d (pos + 4) (pos + 8) = IENDb
    · rw [if_pos h3] at h
      have hpq : pos = q := by cases h; rfl
      subst hpq
      have hfuel1 : fuel + 1 + g + 1 = (fuel + g + 1) + 1 := by omega
      rw [hfuel1, locateIend,
        if_pos (show pos < y.length by omega),
        if_neg (show ¬(pos + 8 > y.length) by omega),
        if_neg hnot,
        if_neg (show ¬(pos + (12 + be32at y pos) > y.length) by rw [hsize]; omega)]
      have hpos2 : pos + (12 + be32at y pos) = pos + Lc := by
        rw [hsize]
        omega
      rw [hpos2]
      have hfuel2 : fuel + g + 1 = (fuel + g) + 1 := by omega
      rw [hfuel2, locateIend,
        if_pos (show pos + Lc < y.length by omega),
        if_neg (show ¬(pos + Lc + 8 > y.length) by omega),
        if_pos hiend2]
    · rw [if_neg h3] at h
      by_cases h4 : pos + (12 + be32at d pos) > d.length
      · rw [if_pos h4] at h
        exact Option.noConfusion h
      rw [if_neg h4] at h
      obtain ⟨hle, _, _, _⟩ := locateIend_facts d fuel (pos + (12 + be32at d pos)) q h
      have hbe2 : be32at y pos = be32at d pos :=
        be32at_agree y d q pos htake (by omega)
      have hsl : slice y (pos + 4) (pos + 8) = slice d (pos + 4) (pos + 8) :=
        slice_agree y d q (pos + 4) (pos + 8) htake (by omega)
      have hfuel1 : fuel + 1 + g + 1 = (fuel + g + 1) + 1 := by omega
      rw [hfuel1, locateIend,
        if_pos (show pos < y.length by omega),
        if_neg (show ¬(pos + 8 > y.length) by omega),
        if_neg (show ¬(slice y (pos + 4) (pos + 8) = IENDb) by rw [hsl]; exact h3),
        hbe2,
        if_neg (show ¬(pos + (12 + be32at d pos) > y.length) by omega)]
      exact ih (pos + (12 + be32at d pos)) g h

/-- Elimination of a successful `add_text_chunk`: all the checks passed
and the output is the input with one tEXt chunk spliced in at the IEND
position. -/
theorem add_text_chunk_ok_elim (v : List Nat → Bool) (data k t y : List Nat)
    (h : add_text_chunk v data k t = .ok y) :
    8 ≤ data.length ∧ data.take 8 = PNG_SIG ∧ v data = true ∧
    1 ≤ k.length ∧ k.length ≤ 79 ∧ k.all isKeywordByte = true ∧
    ∃ q, locateIend data data.length 8 = some q ∧
      y = data.take 8 ++ slice data 8 q ++
        be32enc (k ++ 0 :: t).length ++ tEXtb ++ (k ++ 0 :: t) ++
        be32enc (calculate_crc tEXtb (k ++ 0 :: t)) ++ data.drop q ∧
      v y = true := by
  by_cases h1 : data.length < 8 ∨ data.take 8 ≠ PNG_SIG
  · rw [add_text_chunk, if_pos h1] at h
    exact Except.noConfusion h
  by_cases hv : v data = true
  case neg =>
    rw [add_text_chunk, if_neg h1, validate_png_decode, if_neg hv] at h
    exact Except.noConfusion h
  have h2 : (if k.length = 0 ∨ k.length > 79 then
      (.error (.InvalidFormat "Keyword must be 1-79 characters") : Except Error (List Nat))
    else if ¬k.all isKeywordByte then
      .error (.InvalidFormat "Keyword must contain only Latin characters")
    else
      match locateIend data data.length 8 with
      | none => .error (.ParseError "IEND chunk not found")
      | some iendStart =>
        match validate_png_decode v (data.take 8 ++ slice data 8 iendStart ++
            be32enc (k ++ 0 :: t).length ++ tEXtb ++ (k ++ 0 :: t) ++
            be32enc (calculate_crc tEXtb (k ++ 0 :: t)) ++ data.drop iendStart) with
        | .error e => .error e
        | .ok _ => .ok (data.take 8 ++ slice data 8 iendStart ++
            be32enc (k ++ 0 :: t).length ++ tEXtb ++ (k ++ 0 :: t) ++
            be32enc (calculate_crc tEXtb (k ++ 0 :: t)) ++ data.drop iendStart)) = .ok y := by
    rw [← h, add_text_chunk, if_neg h1, validate_png_decode, if_pos hv]
  rw [not_or, not_lt] at h1
  by_cases hk0 : k.length = 0 ∨ k.length > 79
  · rw [if_pos hk0] at h2
    exact Except.noConfusion h2
  rw [if_neg hk0] at h2
  by_cases hka : ¬k.all isKeywordByte = true
  · rw [if_pos hka] at h2
    exact Except.noConfusion h2
  rw [if_neg hka] at h2
  rw [not_or] at hk0
  rcases hloc : locateIend data data.length 8 with _ | q
  · rw [hloc] at h2
    exact Except.noConfusion h2
  rw [hloc] at h2
  have h3 : (match validate_png_decode v (data.take 8 ++ slice data 8 q ++
      be32enc (k ++ 0 :: t).length ++ tEXtb ++ (k ++ 0 :: t) ++
      be32enc (calculate_crc tEXtb (k ++ 0 :: t)) ++ data.drop q) with
    | .error e => (.error e : Except Error (List Nat))
    | .ok _ => .ok (data.take 8 ++ slice data 8 q ++
        be32enc (k ++ 0 :: t).length ++ tEXtb ++ (k ++ 0 :: t) ++
        be32enc (calculate_crc tEXtb (k ++ 0 :: t)) ++ data.drop q)) = .ok y := h2
  by_cases hvy : v (data.take 8 ++ slice data 8 q ++
      be32enc (k ++ 0 :: t).length ++ tEXtb ++ (k ++ 0 :: t) ++
      be32enc (calculate_crc tEXtb (k ++ 0 :: t)) ++ data.drop q) = true
  · have h5 : validate_png_decode v (data.take 8 ++ slice data 8 q ++
        be32enc (k ++ 0 :: t).length ++ tEXtb ++ (k ++ 0 :: t) ++
        be32enc (calculate_crc tEXtb (k ++ 0 :: t)) ++ data.drop q) = .ok () := by
      rw [validate_png_decode, if_pos hvy]
    rw [h5] at h3
    have h6 : (Except.ok (data.take 8 ++ slice data 8 q ++
        be32enc (k ++ 0 :: t).length ++ tEXtb ++ (k ++ 0 :: t) ++
        be32enc (calculate_crc tEXtb (k ++ 0 :: t)) ++ data.drop q) :
        Except Error (List Nat)) = .ok y := h3
    have hy : y = data.take 8 ++ slice data 8 q ++
        be32enc (k ++ 0 :: t).length ++ tEXtb ++ (k ++ 0 :: t) ++
        be32enc (calculate_crc tEXtb (k ++ 0 :: t)) ++ data.drop q := by
      cases h6
      rfl
    refine ⟨h1.1, not_ne_iff.mp h1.2, hv, by omega, by omega, by simpa using hka,
      q, rfl, hy, by rw [hy]; exact hvy⟩
  · have h5 : validate_png_decode v (data.take 8 ++ slice data 8 q ++
        be32enc (k ++ 0 :: t).length ++ tEXtb ++ (k ++ 0 :: t) ++
        be32enc (calculate_crc tEXtb (k ++ 0 :: t)) ++ data.drop q) =
        .error (.InvalidFormat "Invalid PNG") := by
      rw [validate_png_decode, if_neg hvy]
    rw [h5] at h3
    exact Except.noConfusion h3

/-- C6 (amended): a tEXt chunk of nonzero declared length whose payload
contains no null byte yields NO entry at all — `read_text_chunks` skips
it silently (no error, and in particular no empty-keyword/whole-payload
entry; the claimed behaviour is refuted by `c6_counterexample`): the
walk's value at the chunk equals its value right after the chunk. -/
theorem read_text_chunks_null_free_skip (p rest : List Nat) (c : PChunk) (fuel : Nat)
    (hwf : chunkWF c) (hty : c.ty = tEXtb) (hpos : 0 < chunkLen c)
    (hnull : ∀ b ∈ c.body.take (chunkLen c), b ≠ 0) :
    readTextWalk (p ++ chunkBytes c ++ rest) (fuel + 1) p.length =
      readTextWalk (p ++ chunkBytes c ++ rest) fuel (p.length + (12 + chunkLen c)) := by
  obtain ⟨hf1, hf2, hf3, hbe, htys, hf5, hposq, hslice, hdata⟩ :=
    chunk_step_facts (p ++ chunkBytes c ++ rest) p rest c rfl hwf
  rw [readTextWalk, if_pos hf1, if_neg hf2, if_neg hf3, hbe, if_neg hf5]
  rw [if_neg (show ¬(slice (p ++ chunkBytes c ++ rest) (p.length + 4) (p.length + 8) =
    IENDb) by rw [htys, hty]; decide)]
  rw [if_pos (And.intro (htys.trans hty) hpos), hdata]
  dsimp only
  rw [findIdx_none_of_nonnull (c.body.take (chunkLen c)) 0 hnull]
  dsimp only
  rw [List.nil_append]

/-- Witness for `read_text_chunks_null_free_skip` on the tEXt chunk of
`c6Png`. -/
theorem read_text_chunks_null_free_skip_witness :
    readTextWalk (PNG_SIG ++ chunkBytes ⟨0, 0, 0, 3, tEXtb, [65, 66, 67, 0, 0, 0, 0]⟩ ++
        ([0, 0, 0, 0] ++ IENDb ++ [0, 0, 0, 0])) 2 8 =
      readTextWalk (PNG_SIG ++ chunkBytes ⟨0, 0, 0, 3, tEXtb, [65, 66, 67, 0, 0, 0, 0]⟩ ++
        ([0, 0, 0, 0] ++ IENDb ++ [0, 0, 0, 0])) 1 23 :=
  read_text_chunks_null_free_skip PNG_SIG ([0, 0, 0, 0] ++ IENDb ++ [0, 0, 0, 0])
    ⟨0, 0, 0, 3, tEXtb, [65, 66, 67, 0, 0, 0, 0]⟩ 1 ⟨rfl, rfl⟩ rfl (by decide) (by decide)

/-- The chunk `add_text_chunk` splices in, as a `PChunk`. -/
def textPChunk (k t : List Nat) : PChunk :=
  ⟨(k ++ 0 :: t).length % 2 ^ 32 / 2 ^ 24,
   (k ++ 0 :: t).length % 2 ^ 24 / 2 ^ 16,
   (k ++ 0 :: t).length % 2 ^ 16 / 2 ^ 8,
   (k ++ 0 :: t).length % 2 ^ 8,
   tEXtb,
   (k ++ 0 :: t) ++ be32enc (calculate_crc tEXtb (k ++ 0 :: t))⟩

theorem textPChunk_bytes (k t : List Nat) :
    chunkBytes (textPChunk k t) =
      be32enc (k ++ 0 :: t).length ++ tEXtb ++ (k ++ 0 :: t) ++
        be32enc (calculate_crc tEXtb (k ++ 0 :: t)) := by
  simp [textPChunk, chunkBytes, be32enc]

theorem textPChunk_len (k t : List Nat) (h : (k ++ 0 :: t).length < 2 ^ 32) :
    chunkLen (textPChunk k t) = (k ++ 0 :: t).length := by
  show 2 ^ 24 * ((k ++ 0 :: t).length % 2 ^ 32 / 2 ^ 24) +
    2 ^ 16 * ((k ++ 0 :: t).length % 2 ^ 24 / 2 ^ 16) +
    2 ^ 8 * ((k ++ 0 :: t).length % 2 ^ 16 / 2 ^ 8) +
    (k ++ 0 :: t).length % 2 ^ 8 = (k ++ 0 :: t).length
  omega

theorem textPChunk_wf (k t : List Nat) (h : (k ++ 0 :: t).length < 2 ^ 32) :
    chunkWF (textPChunk k t) := by
  refine ⟨rfl, ?_⟩
  rw [textPChunk_len k t h]
  show ((k ++ 0 :: t) ++ be32enc (calculate_crc tEXtb (k ++ 0 :: t))).length =
    (k ++ 0 :: t).length + 4
  simp [be32enc]
  omega

theorem textPChunk_body_take (k t : List Nat) (h : (k ++ 0 :: t).length < 2 ^ 32) :
    (textPChunk k t).body.take (chunkLen (textPChunk k t)) = k ++ 0 :: t := by
  rw [textPChunk_len k t h]
  exact take_prefix_eq (k ++ 0 :: t) (be32enc (calculate_crc tEXtb (k ++ 0 :: t))) _ rfl

/-- One walk step over a spliced-in tEXt chunk yields exactly its
`(keyword, text)` entry. -/
theorem readTextWalk_textPChunk (p rest k t : List Nat) (m : Nat)
    (hsm : (k ++ 0 :: t).length < 2 ^ 32)
    (hk : ∀ b ∈ k, b ≠ 0) :
    readTextWalk (p ++ chunkBytes (textPChunk k t) ++ rest) (m + 1) p.length =
      ⟨k, t⟩ :: readTextWalk (p ++ chunkBytes (textPChunk k t) ++ rest) m
        (p.length + (12 + (k ++ 0 :: t).length)) := by
  have h := readTextWalk_text_step p rest k t (textPChunk k t) m
    (textPChunk_wf k t hsm) rfl (textPChunk_body_take k t hsm) hk
  rw [textPChunk_len k t hsm] at h
  exact h

/-- C5: whenever `add_text_chunk` succeeds, reading the result yields the
pair `(k, t)` as the LAST entry, with `t` byte-for-byte literal (embedded
null bytes included); and adding a second chunk with the same keyword
yields two independent entries, both present, in insertion order.  (The
`< 2^32` bounds say the chunk's declared length, a `u32`, does not
truncate.) -/
theorem add_read_text_chunk (v : List Nat → Bool) (data k t y : List Nat)
    (hadd : add_text_chunk v data k t = .ok y)
    (hsm : k.length + 1 + t.length < 2 ^ 32) :
    (∃ e0, read_text_chunks v y = .ok (e0 ++ [⟨k, t⟩])) ∧
    (∀ t2 y2, add_text_chunk v y k t2 = .ok y2 → k.length + 1 + t2.length < 2 ^ 32 →
      ∃ e1, read_text_chunks v y2 = .ok (e1 ++ [⟨k, t⟩, ⟨k, t2⟩])) := by
  obtain ⟨hd8, hsig, hvd, hk1, hk79, hkall, q, hloc, hy, hvy⟩ :=
    add_text_chunk_ok_elim v data k t y hadd
  obtain ⟨hq8, hqlt, hq8le, hiendd⟩ := locateIend_facts data data.length 8 q hloc
  have hk0 : ∀ b ∈ k, b ≠ 0 := keyword_nonzero k hkall
  have hsm1 : (k ++ 0 :: t).length < 2 ^ 32 := by
    simp only [List.length_append, List.length_cons]
    omega
  have hy2 : y = data.take q ++ chunkBytes (textPChunk k t) ++ data.drop q := by
    rw [hy, textPChunk_bytes, ← take_slice_take data q hq8 (le_of_lt hqlt)]
    simp [List.append_assoc]
  have hq : (data.take q).length = q := take_len data q (le_of_lt hqlt)
  have hcb1 : (chunkBytes (textPChunk k t)).length = 12 + (k ++ 0 :: t).length := by
    rw [chunkBytes_length _ (textPChunk_wf k t hsm1), textPChunk_len k t hsm1]
  have hylen : y.length = data.length + (12 + (k ++ 0 :: t).length) := by
    rw [hy2]
    simp only [List.length_append, hq, hcb1, List.length_drop]
    omega
  have htakeq : y.take q = data.take q := by
    rw [hy2, List.append_assoc]
    exact take_prefix_eq _ _ _ hq
  obtain ⟨e0, m, hm, hwalk⟩ := readTextWalk_locate data y q htakeq (by omega)
    data.length 8 (y.length - data.length) hloc
  rw [show data.length + (y.length - data.length) = y.length by omega] at hwalk
  have hstep := readTextWalk_textPChunk (data.take q) (data.drop q) k t (m - 1) hsm1 hk0
  rw [hq, ← hy2] at hstep
  have hpos2 : q + (12 + (k ++ 0 :: t).length) =
      (data.take q ++ chunkBytes (textPChunk k t)).length := by
    simp only [List.length_append, hq, hcb1]
  have hiendy : slice y ((data.take q ++ chunkBytes (textPChunk k t)).length + 4)
      ((data.take q ++ chunkBytes (textPChunk k t)).length + 8) = IENDb := by
    rw [hy2, slice_append (data.take q ++ chunkBytes (textPChunk k t)) (data.drop q) 4 8,
      slice_drop data q 4 8]
    exact hiendd
  have hq12 : readTextWalk y m q = [⟨k, t⟩] := by
    rw [show m = (m - 1) + 1 by omega, hstep, hpos2,
      readTextWalk_iend y _ hiendy (m - 1)]
  have hytake8 : y.take 8 = PNG_SIG := by
    rw [show (8 : Nat) = min 8 q by omega, ← List.take_take, htakeq, List.take_take,
      show min 8 q = 8 by omega]
    exact hsig
  have hysig : ¬(y.length < 8 ∨ y.take 8 ≠ PNG_SIG) := by
    rw [not_or]
    exact ⟨by omega, not_ne_iff.mpr hytake8⟩
  have hread1 : read_text_chunks v y = .ok (e0 ++ [⟨k, t⟩]) := by
    rw [read_text_chunks, if_neg hysig, validate_png_decode, if_pos hvy]
    show (Except.ok (readTextWalk y y.length 8) : Except Error (List TextChunk)) =
      .ok (e0 ++ [⟨k, t⟩])
    rw [hwalk, hq12]
  refine ⟨⟨e0, hread1⟩, ?_⟩
  intro t2 y2 hadd2 hsm2p
  have hsm2 : (k ++ 0 :: t2).length < 2 ^ 32 := by
    simp only [List.length_append, List.length_cons]
    omega
  obtain ⟨_, _, _, _, _, _, q2, hloc2, hy2s, hvy2⟩ :=
    add_text_chunk_ok_elim v y k t2 y2 hadd2
  obtain ⟨hq28, hq2lt, hq28le, hiendy2⟩ := locateIend_facts y y.length 8 q2 hloc2
  have hnotiendy : ¬slice y (q + 4) (q + 8) = IENDb := by
    obtain ⟨_, _, _, _, htyq, _, _, _, _⟩ :=
      chunk_step_facts y (data.take q) (data.drop q) (textPChunk k t) hy2
        (textPChunk_wf k t hsm1)
    rw [hq] at htyq
    have htyq2 : slice y (q + 4) (q + 8) = tEXtb := htyq
    rw [htyq2]
    decide
  have hbeq : be32at y q = chunkLen (textPChunk k t) := by
    obtain ⟨_, _, _, hbeq, _, _, _, _, _⟩ :=
      chunk_step_facts y (data.take q) (data.drop q) (textPChunk k t) hy2
        (textPChunk_wf k t hsm1)
    rw [hq] at hbeq
    exact hbeq
  have hiendyq : slice y (q + (12 + (k ++ 0 :: t).length) + 4)
      (q + (12 + (k ++ 0 :: t).length) + 8) = IENDb := by
    rw [hpos2]
    exact hiendy
  have htr := locateIend_transport data y q (12 + (k ++ 0 :: t).length) htakeq hylen
    hnotiendy (by rw [hbeq, textPChunk_len k t hsm1]; omega) (by omega) hq8le hiendyq
    data.length 8 (12 + (k ++ 0 :: t).length - 1) hloc
  rw [show data.length + (12 + (k ++ 0 :: t).length - 1) + 1 = y.length by omega] at htr
  have hq2 : q2 = q + (12 + (k ++ 0 :: t).length) := by
    rw [htr] at hloc2
    exact Option.some.inj hloc2.symm
  have hytakeq2 : y.take q2 = data.take q ++ chunkBytes (textPChunk k t) := by
    rw [hq2, hpos2, hy2]
    exact take_prefix_eq _ _ _ rfl
  have hydropq2 : y.drop q2 = data.drop q := by
    rw [hq2, hpos2, hy2]
    exact drop_prefix_eq _ _ _ rfl
  have hy2full : y2 = data.take q ++ chunkBytes (textPChunk k t) ++
      chunkBytes (textPChunk k t2) ++ data.drop q := by
    rw [hy2s, textPChunk_bytes k t2, take_slice_take y q2 (by omega) (le_of_lt hq2lt),
      hytakeq2, hydropq2]
    simp [List.append_assoc]
  have hcb2 : (chunkBytes (textPChunk k t2)).length = 12 + (k ++ 0 :: t2).length := by
    rw [chunkBytes_length _ (textPChunk_wf k t2 hsm2), textPChunk_len k t2 hsm2]
  have hy2len : y2.length =
      data.length + (12 + (k ++ 0 :: t).length) + (12 + (k ++ 0 :: t2).length) := by
    rw [hy2full]
    simp only [List.length_append, hq, hcb1, hcb2, List.length_drop]
    omega
  have htakeq_2 : y2.take q = data.take q := by
    have hassoc : y2 = data.take q ++ (chunkBytes (textPChunk k t) ++
        (chunkBytes (textPChunk k t2) ++ data.drop q)) := by
      rw [hy2full]
      simp [List.append_assoc]
    rw [hassoc]
    exact take_prefix_eq _ _ _ hq
  obtain ⟨e1, m2, hm2, hwalk2⟩ := readTextWalk_locate data y2 q htakeq_2 (by omega)
    data.length 8 (y2.length - data.length) hloc
  rw [show data.length + (y2.length - data.length) = y2.length by omega] at hwalk2
  have hstep1 := readTextWalk_textPChunk (data.take q)
    (chunkBytes (textPChunk k t2) ++ data.drop q) k t (m2 - 2 + 1) hsm1 hk0
  rw [hq] at hstep1
  have hbuf1 : data.take q ++ chunkBytes (textPChunk k t) ++
      (chunkBytes (textPChunk k t2) ++ data.drop q) = y2 := by
    rw [hy2full]
    simp [List.append_assoc]
  rw [hbuf1] at hstep1
  have hstep2 := readTextWalk_textPChunk (data.take q ++ chunkBytes (textPChunk k t))
    (data.drop q) k t2 (m2 - 2) hsm2 hk0
  have hbuf2 : data.take q ++ chunkBytes (textPChunk k t) ++
      chunkBytes (textPChunk k t2) ++ data.drop q = y2 := hy2full.symm
  rw [hbuf2, ← hpos2] at hstep2
  have hpos3 : q + (12 + (k ++ 0 :: t).length) + (12 + (k ++ 0 :: t2).length) =
      (data.take q ++ chunkBytes (textPChunk k t) ++
        chunkBytes (textPChunk k t2)).length := by
    simp only [List.length_append, hq, hcb1, hcb2]
  have hiendy3 : slice y2 ((data.take q ++ chunkBytes (textPChunk k t) ++
      chunkBytes (textPChunk k t2)).length + 4)
      ((data.take q ++ chunkBytes (textPChunk k t) ++
        chunkBytes (textPChunk k t2)).length + 8) = IENDb := by
    rw [hy2full, slice_append (data.take q ++ chunkBytes (textPChunk k t) ++
      chunkBytes (textPChunk k t2)) (data.drop q) 4 8, slice_drop data q 4 8]
    exact hiendd
  have hq22 : readTextWalk y2 m2 q = [⟨k, t⟩, ⟨k, t2⟩] := by
    rw [show m2 = (m2 - 2 + 1) + 1 by omega, hstep1, hstep2, hpos3,
      readTextWalk_iend y2 _ hiendy3 (m2 - 2)]
  have hy2take8 : y2.take 8 = PNG_SIG := by
    rw [show (8 : Nat) = min 8 q by omega, ← List.take_take, htakeq_2, List.take_take,
      show min 8 q = 8 by omega]
    exact hsig
  have hy2sig : ¬(y2.length < 8 ∨ y2.take 8 ≠ PNG_SIG) := by
    rw [not_or]
    exact ⟨by omega, not_ne_iff.mpr hy2take8⟩
  refine ⟨e1, ?_⟩
  rw [read_text_chunks, if_neg hy2sig, validate_png_decode, if_pos hvy2]
  show (Except.ok (readTextWalk y2 y2.length 8) : Except Error (List TextChunk)) =
    .ok (e1 ++ [⟨k, t⟩, ⟨k, t2⟩])
  rw [hwalk2, hq22]

set_option maxRecDepth 4000

/-- Witness for `add_read_text_chunk`: a one-IHDR-chunk PNG, keyword
`"A"`, text bytes `[1, 0, 2]` (with an embedded null). -/
theorem add_read_text_chunk_witness :
    (∃ e0, read_text_chunks vTrue
        [137, 80, 78, 71, 13, 10, 26, 10, 0, 0, 0, 2, 73, 72, 68, 82, 9, 9, 1, 2, 3, 4,
         0, 0, 0, 5, 116, 69, 88, 116, 65, 0, 1, 0, 2, 32, 237, 216, 27,
         0, 0, 0, 0, 73, 69, 78, 68, 174, 66, 96, 130] =
      .ok (e0 ++ [⟨[65], [1, 0, 2]⟩])) ∧
    (∀ t2 y2, add_text_chunk vTrue
        [137, 80, 78, 71, 13, 10, 26, 10, 0, 0, 0, 2, 73, 72, 68, 82, 9, 9, 1, 2, 3, 4,
         0, 0, 0, 5, 116, 69, 88, 116, 65, 0, 1, 0, 2, 32, 237, 216, 27,
         0, 0, 0, 0, 73, 69, 78, 68, 174, 66, 96, 130] [65] t2 = .ok y2 →
      ([65] : List Nat).length + 1 + t2.length < 2 ^ 32 →
      ∃ e1, read_text_chunks vTrue y2 = .ok (e1 ++ [⟨[65], [1, 0, 2]⟩, ⟨[65], t2⟩])) :=
  add_read_text_chunk vTrue
    (PNG_SIG ++ [0, 0, 0, 2] ++ IHDRb ++ [9, 9] ++ [1, 2, 3, 4] ++
      [0, 0, 0, 0] ++ IENDb ++ [0xAE, 0x42, 0x60, 0x82]) [65] [1, 0, 2]
    [137, 80, 78, 71, 13, 10, 26, 10, 0, 0, 0, 2, 73, 72, 68, 82, 9, 9, 1, 2, 3, 4,
     0, 0, 0, 5, 116, 69, 88, 116, 65, 0, 1, 0, 2, 32, 237, 216, 27,
     0, 0, 0, 0, 73, 69, 78, 68, 174, 66, 96, 130]
    (by decide) (by decide)

/-- C9: with a decoder that accepts every buffer, on a signature-bearing
PNG that contains an IEND chunk, `add_text_chunk` fails — and then with
`InvalidFormat` — iff the keyword is invalid: empty, longer than 79
bytes, or holding a byte that is not ASCII alphanumeric or ASCII
space. -/
theorem add_text_chunk_invalid_iff (v : List Nat → Bool) (data k t : List Nat)
    (hv : ∀ d, v d = true)
    (hsig : data.take 8 = PNG_SIG) (hlen : 8 ≤ data.length)
    (hiend : ∃ q, locateIend data data.length 8 = some q) :
    (∃ msg, add_text_chunk v data k t = .error (.InvalidFormat msg)) ↔
      ¬(1 ≤ k.length ∧ k.length ≤ 79 ∧ k.all isKeywordByte = true) := by
  obtain ⟨q, hq⟩ := hiend
  have h1 : ¬(data.length < 8 ∨ data.take 8 ≠ PNG_SIG) := by
    rw [not_or]
    exact ⟨by omega, not_ne_iff.mpr hsig⟩
  have hstep : add_text_chunk v data k t =
      (if k.length = 0 ∨ k.length > 79 then
        (.error (.InvalidFormat "Keyword must be 1-79 characters") : Except Error (List Nat))
      else if ¬k.all isKeywordByte then
        .error (.InvalidFormat "Keyword must contain only Latin characters")
      else
        match locateIend data data.length 8 with
        | none => .error (.ParseError "IEND chunk not found")
        | some iendStart =>
          match validate_png_decode v (data.take 8 ++ slice data 8 iendStart ++
              be32enc (k ++ 0 :: t).length ++ tEXtb ++ (k ++ 0 :: t) ++
              be32enc (calculate_crc tEXtb (k ++ 0 :: t)) ++ data.drop iendStart) with
          | .error e => .error e
          | .ok _ => .ok (data.take 8 ++ slice data 8 iendStart ++
              be32enc (k ++ 0 :: t).length ++ tEXtb ++ (k ++ 0 :: t) ++
              be32enc (calculate_crc tEXtb (k ++ 0 :: t)) ++ data.drop iendStart)) := by
    rw [add_text_chunk, if_neg h1, validate_png_decode, hv data, if_pos rfl]
  by_cases hk0 : k.length = 0 ∨ k.length > 79
  · constructor
    · intro _ hc
      obtain ⟨hc1, hc2, _⟩ := hc
      rcases hk0 with h | h <;> omega
    · intro _
      refine ⟨"Keyword must be 1-79 characters", ?_⟩
      rw [hstep, if_pos hk0]
  rw [not_or] at hk0
  by_cases hka : k.all isKeywordByte = true
  case neg =>
    constructor
    · intro _ hc
      exact hka hc.2.2
    · intro _
      refine ⟨"Keyword must contain only Latin characters", ?_⟩
      rw [hstep, if_neg (show ¬(k.length = 0 ∨ k.length > 79) by rw [not_or]; exact hk0),
        if_pos (show ¬k.all isKeywordByte = true from hka)]
  have hok : add_text_chunk v data k t = .ok (data.take 8 ++ slice data 8 q ++
      be32enc (k ++ 0 :: t).length ++ tEXtb ++ (k ++ 0 :: t) ++
      be32enc (calculate_crc tEXtb (k ++ 0 :: t)) ++ data.drop q) := by
    rw [hstep, if_neg (show ¬(k.length = 0 ∨ k.length > 79) by rw [not_or]; exact hk0),
      if_neg (not_not_intro hka), hq]
    show (match validate_png_decode v (data.take 8 ++ slice data 8 q ++
        be32enc (k ++ 0 :: t).length ++ tEXtb ++ (k ++ 0 :: t) ++
        be32enc (calculate_crc tEXtb (k ++ 0 :: t)) ++ data.drop q) with
      | .error e => (.error e : Except Error (List Nat))
      | .ok _ => .ok (data.take 8 ++ slice data 8 q ++
          be32enc (k ++ 0 :: t).length ++ tEXtb ++ (k ++ 0 :: t) ++
          be32enc (calculate_crc tEXtb (k ++ 0 :: t)) ++ data.drop q)) = .ok _
    rw [validate_png_decode, hv, if_pos rfl]
  constructor
  · rintro ⟨msg, hmsg⟩
    rw [hok] at hmsg
    exact Except.noConfusion hmsg
  · intro hc
    exact absurd ⟨by omega, by omega, hka⟩ hc

/-- Witness for `add_text_chunk_invalid_iff`: the valid one-byte keyword
`"A"` on a minimal PNG. -/
theorem add_text_chunk_invalid_iff_witness :
    (∃ msg, add_text_chunk vTrue
        [137, 80, 78, 71, 13, 10, 26, 10, 0, 0, 0, 2, 73, 72, 68, 82, 9, 9, 1, 2, 3, 4,
         0, 0, 0, 0, 73, 69, 78, 68, 174, 66, 96, 130] [65] [66] =
      .error (.InvalidFormat msg)) ↔
      ¬(1 ≤ ([65] : List Nat).length ∧ ([65] : List Nat).length ≤ 79 ∧
        ([65] : List Nat).all isKeywordByte = true) :=
  add_text_chunk_invalid_iff vTrue
    [137, 80, 78, 71, 13, 10, 26, 10, 0, 0, 0, 2, 73, 72, 68, 82, 9, 9, 1, 2, 3, 4,
     0, 0, 0, 0, 73, 69, 78, 68, 174, 66, 96, 130] [65] [66]
    (fun _ => rfl) (by decide) (by decide) ⟨22, by decide⟩

end WebImageMeta
